import Mathlib

/-!
# Verification of the single-writer orchestrator core

A shallow embedding, in Lean 4, of the single-writer orchestration engine of
this repository (`orchestrator/orchestrator.py`, `orchestrator/contracts.py`,
`orchestrator/mersenne_contracts.py`, and the worker harness of
`orchestrator/run_orchestrator.py`), together with theorems settling the
frozen claims about it.

Modelling conventions, stated once here:

* JSON values are modelled by the inductive `JVal`.  Python dictionaries are
  ordered (insertion order), and the repository serializes ledger lines
  *without* `sort_keys`, so object fields are kept as ordered entry lists
  (`JEntries`); two objects that differ only in field order are distinct
  `JVal`s, exactly as their serialized lines are distinct byte strings.
* JSON numbers are modelled as rationals (`ℚ`).  Python floats are a subset
  of ℚ and every numeric comparison performed by the code (`abs(x) > eps`)
  acts on floats exactly as the rational comparison acts on the rational
  values those floats denote.  Python's `int`/`float` distinction inside
  serialized JSON (`1` vs `1.0`) and the non-finite floats (`nan`, `inf`)
  are not modelled; no claim depends on them.
* `sha256_json` hashes the canonical (recursively key-sorted, compact,
  deterministic) serialization of a value.  The SHA-256 compression itself is
  modelled as the identity on canonical content: the hash of a value is
  represented by its canonical form (`canon`).  Every claim depends only on
  equality/inequality of hashes of canonical content, which this model
  captures, assuming as usual that SHA-256 is collision-free on the inputs
  the program ever hashes.
* `now_iso()` (wall-clock timestamps) is modelled as an arbitrary clock
  oracle `OrchCfg.now`, indexed by the acceptance sequence number at which
  it is sampled.
* File-system side effects that never feed back into orchestration state
  (checkpoint files, the `state.json` convenience cache written by
  `save_state`, the lock file) are not part of the state model; the ledger
  file is modelled as the list of its (parsed) lines.
* A Python statement that raises an uncaught exception is modelled by
  `Option`/`Except` failure; the raising call's partial effects are
  preserved exactly where the source would preserve them.
-/

/-! ## JSON values (ordered objects, rational numbers) -/

mutual
/-- A parsed JSON value.  Objects keep their (Python-insertion / file) field
order; numbers are rationals. -/
inductive JVal where
  | jnull : JVal
  | jbool : Bool → JVal
  | jnum : ℚ → JVal
  | jstr : String → JVal
  | jarr : JList → JVal
  | jobj : JEntries → JVal
  deriving DecidableEq, Repr
/-- A JSON array, as a hand-rolled list (so that mutual structural recursion
over `JVal` reduces definitionally). -/
inductive JList where
  | nil : JList
  | cons : JVal → JList → JList
  deriving DecidableEq, Repr
/-- Ordered field list of a JSON object. -/
inductive JEntries where
  | nil : JEntries
  | cons : String → JVal → JEntries → JEntries
  deriving DecidableEq, Repr
end

/-- First value bound to `key`, i.e. Python `d[key]` / `d.get(key)` on the
dict parsed from an object.  (Python dict keys are unique, so first-match
lookup agrees with dict lookup.) -/
def findKey : JEntries → String → Option JVal
  | .nil, _ => none
  | .cons k v tl, key => if k = key then some v else findKey tl key

/-- Python `key in d` for a dict `d`. -/
def hasKey (fs : JEntries) (key : String) : Bool :=
  (findKey fs key).isSome

/-- View of an entry list as a Lean list, used only in specifications. -/
def entriesToList : JEntries → List (String × JVal)
  | .nil => []
  | .cons k v tl => (k, v) :: entriesToList tl

/-- View of a JSON array as a Lean list. -/
def jlistToList : JList → List JVal
  | .nil => []
  | .cons v tl => v :: jlistToList tl

/-- Key order used by the canonical (`sort_keys=True`) serialization. -/
def keyLE (a b : String) : Bool := (compare a b).isLE

/-- Insert one field into a key-sorted entry list. -/
def insertEntry (k : String) (v : JVal) : JEntries → JEntries
  | .nil => .cons k v .nil
  | .cons k' v' tl =>
      if keyLE k k' then .cons k v (.cons k' v' tl)
      else .cons k' v' (insertEntry k v tl)

/-- Sort an object's fields by key (insertion sort). -/
def sortEntries : JEntries → JEntries
  | .nil => .nil
  | .cons k v tl => insertEntry k v (sortEntries tl)

mutual
/-- Canonical form of a JSON value: every object's fields recursively sorted
by key.  This is the content that `json.dumps(obj, sort_keys=True,
separators=(",", ":"), ensure_ascii=True)` serializes; two values have equal
canonical serializations iff they have equal canonical forms. -/
def canon : JVal → JVal
  | .jnull => .jnull
  | .jbool b => .jbool b
  | .jnum q => .jnum q
  | .jstr s => .jstr s
  | .jarr xs => .jarr (canonList xs)
  | .jobj fs => .jobj (sortEntries (canonEntries fs))
def canonList : JList → JList
  | .nil => .nil
  | .cons v tl => .cons (canon v) (canonList tl)
def canonEntries : JEntries → JEntries
  | .nil => .nil
  | .cons k v tl => .cons k (canon v) (canonEntries tl)
end

/-- `sha256_json` (contracts.py): deterministic SHA-256 of the canonical
serialization of a JSON-serializable value.  The SHA-256 compression is
modelled as the identity on canonical content (see the header comment): the
hash value is represented by the canonical form itself, so hash equality is
canonical-content equality. -/
def sha256_json (v : JVal) : JVal := canon v

/-! ## Python dynamic-typing helpers

The validators and gates call Python's built-in conversions `float(x)`,
`int(x)` and the containment test `x in y` on untyped values; these helpers
model those built-ins on `JVal`. -/

/-- Numeric value of a list of decimal digit characters. -/
def digitsToNat (cs : List Char) : Nat :=
  cs.foldl (fun a c => a * 10 + (c.toNat - 48)) 0

/-- Strip surrounding whitespace from a character list (the `str.strip()`
Python's numeric conversions apply to their string argument). -/
def trimChars (cs : List Char) : List Char :=
  ((cs.dropWhile Char.isWhitespace).reverse.dropWhile Char.isWhitespace).reverse

/-- Split off a leading run of decimal digits. -/
def spanDigits : List Char → List Char × List Char
  | [] => ([], [])
  | c :: tl =>
      if c.isDigit then
        let p := spanDigits tl
        (c :: p.1, p.2)
      else ([], c :: tl)

/-- Split off an optional leading sign, returning the sign as `±1`. -/
def spanSign : List Char → ℚ × List Char
  | '-' :: tl => (-1, tl)
  | '+' :: tl => (1, tl)
  | cs => (1, cs)

/-- Modelled from Python's built-in `float(str)`: optional surrounding
whitespace, optional sign, decimal digits with optional fractional part and
optional exponent.  (Python additionally accepts `"inf"`/`"nan"` and
underscore digit separators; no code path or claim in this repository
exercises those.) -/
def parsePyFloat (s : String) : Option ℚ :=
  let cs := trimChars s.data
  let sp := spanSign cs
  let ip := spanDigits sp.2
  let fr : List Char × List Char :=
    match ip.2 with
    | '.' :: tl => spanDigits tl
    | _ => ([], ip.2)
  if ip.1.isEmpty && fr.1.isEmpty then none
  else
    let mant : ℚ := sp.1 * (digitsToNat (ip.1 ++ fr.1) : ℚ) / 10 ^ fr.1.length
    match fr.2 with
    | [] => some mant
    | c :: tl =>
        if c = 'e' ∨ c = 'E' then
          let esp := spanSign tl
          let ed := spanDigits esp.2
          if ed.1.isEmpty ∨ ¬ ed.2.isEmpty then none
          else some (mant * 10 ^ ((if esp.1 = 1 then (1 : ℤ) else -1) * digitsToNat ed.1))
        else none

/-- Modelled from Python's built-in `int(str)`: optional surrounding
whitespace, optional sign, decimal digits only. -/
def parsePyInt (s : String) : Option ℤ :=
  let cs := trimChars s.data
  let sp := spanSign cs
  let dg := spanDigits sp.2
  if dg.1.isEmpty ∨ ¬ dg.2.isEmpty then none
  else some ((if sp.1 = 1 then (1 : ℤ) else -1) * digitsToNat dg.1)

/-- Python `float(x)` on a parsed JSON value: `none` means the call raises
(`TypeError` for non-scalars and `None`, `ValueError` for non-numeric
strings).  `float(True) = 1.0`, `float(False) = 0.0`. -/
def pyFloat : JVal → Option ℚ
  | .jnum q => some q
  | .jbool b => some (if b then 1 else 0)
  | .jstr s => parsePyFloat s
  | _ => none

/-- `float(x)` succeeds. -/
def pyFloatable (v : JVal) : Bool := (pyFloat v).isSome

/-- Truncation toward zero, the behaviour of Python `int(float)`. -/
def ratTrunc (q : ℚ) : ℤ :=
  if 0 ≤ q then q.floor else -((-q).floor)

/-- The two exception classes distinguished by the replay `except` clause. -/
inductive PyErr where
  | typeError
  | valueError
  deriving DecidableEq, Repr

deriving instance DecidableEq for Except

/-- Python `int(x)` on a parsed JSON value: truncates numbers, converts
booleans, parses integer strings (`ValueError` on failure), raises
`TypeError` on `None` and non-scalars. -/
def pyToInt : JVal → Except PyErr ℤ
  | .jnum q => .ok (ratTrunc q)
  | .jbool b => .ok (if b then 1 else 0)
  | .jstr s =>
      match parsePyInt s with
      | some n => .ok n
      | none => .error .valueError
  | _ => .error .typeError

/-- `int(x)` succeeds (raises neither `ValueError` nor `TypeError`). -/
def pyIntable (v : JVal) : Bool := (pyToInt v).toOption.isSome

/-- `startsWithChars s pat`: `pat` is an initial run of `s`. -/
def startsWithChars : List Char → List Char → Bool
  | _, [] => true
  | [], _ :: _ => false
  | c :: s, d :: p => c = d && startsWithChars s p

/-- `containsChars pat s`: `pat` occurs contiguously inside `s`. -/
def containsChars (pat : List Char) : List Char → Bool
  | [] => startsWithChars [] pat
  | c :: s => startsWithChars (c :: s) pat || containsChars pat s

/-- Python `key in x`: key membership for dicts, element membership for
lists, substring test for strings; `TypeError` (modelled as `.error`) for
non-container values. -/
def pyContains (v : JVal) (key : String) : Except Unit Bool :=
  match v with
  | .jobj fs => .ok (hasKey fs key)
  | .jarr xs => .ok ((jlistToList xs).contains (.jstr key))
  | .jstr s => .ok (containsChars key.data s.data)
  | _ => .error ()

/-! ## Contracts (contracts.py, mersenne_contracts.py) -/

/-- `JobStatus` literal type. -/
inductive JobStatus where
  | PENDING
  | RUNNING
  | DONE
  | FAILED
  deriving DecidableEq, Repr

/-- `AcceptVerdict` literal type. -/
inductive AcceptVerdict where
  | ACCEPTED
  | REJECTED_SCHEMA
  | REJECTED_TOL
  | REJECTED_DUP
  deriving DecidableEq, Repr

/-- The `Job` dataclass; also the shape of the per-job dict the orchestrator
keeps in `state["jobs"]` (the two carry identical fields). -/
structure Job where
  job_id : String
  t_start : ℚ
  t_end : ℚ
  stride : ℚ
  attempts : ℤ := 0
  status : JobStatus := .PENDING
  last_error : Option String := none
  deriving DecidableEq, Repr

/-- `ResultPayload.validate`: strict schema gate of the default (Riemann)
payload contract.  Field order matches the source: key presence, then
`isinstance(d["meta"], dict)`, then `float(d["t"])`, `float(d["root_val"])`
inside a `try` catching `ValueError`/`TypeError`. -/
def ResultPayload.validate (d : JVal) : Bool :=
  match d with
  | .jobj fs =>
      hasKey fs "t" && hasKey fs "root_val" && hasKey fs "meta" &&
      (match findKey fs "meta" with
        | some (.jobj _) => true
        | _ => false) &&
      pyFloatable ((findKey fs "t").getD .jnull) &&
      pyFloatable ((findKey fs "root_val").getD .jnull)
  | _ => false

/-- `MersenneResultPayload.validate`: strict schema gate for Mersenne
certification results.  `bool(d["is_prime"])` never raises in Python, so it
imposes no constraint. -/
def MersenneResultPayload.validate (d : JVal) : Bool :=
  match d with
  | .jobj fs =>
      (["p", "residue_hash", "roundoff_max", "engine_version", "wall_time",
        "is_prime", "meta"].all (hasKey fs)) &&
      pyIntable ((findKey fs "p").getD .jnull) &&
      pyFloatable ((findKey fs "roundoff_max").getD .jnull) &&
      pyFloatable ((findKey fs "wall_time").getD .jnull) &&
      (match findKey fs "residue_hash" with
        | some (.jstr s) => s.length = 64
        | _ => false)
  | _ => false

/-- The `LedgerEvent` dataclass. -/
structure LedgerEvent where
  run_id : String
  worker_id : ℤ
  job_id : String
  seq : ℤ
  payload : JVal
  ts : String
  hash : JVal
  deriving DecidableEq, Repr

/-- The `base` dict assembled inside `LedgerEvent.from_parts`: every field of
the event except `hash` itself, in construction order. -/
def LedgerEvent.base (run_id : String) (worker_id : ℤ) (job_id : String)
    (seq : ℤ) (payload : JVal) (ts : String) : JVal :=
  .jobj (.cons "run_id" (.jstr run_id)
        (.cons "worker_id" (.jnum (worker_id : ℚ))
        (.cons "job_id" (.jstr job_id)
        (.cons "seq" (.jnum (seq : ℚ))
        (.cons "payload" payload
        (.cons "ts" (.jstr ts) .nil))))))

/-- `LedgerEvent.from_parts`: builds the event and computes the integrity
hash over every other field.  `ts` is the string `now_iso()` returned (see
the clock-oracle convention in the header). -/
def LedgerEvent.from_parts (run_id : String) (worker_id : ℤ) (job_id : String)
    (seq : ℤ) (payload : JVal) (ts : String) : LedgerEvent :=
  { run_id := run_id, worker_id := worker_id, job_id := job_id, seq := seq,
    payload := payload, ts := ts,
    hash := sha256_json (LedgerEvent.base run_id worker_id job_id seq payload ts) }

/-! ## Orchestrator core (orchestrator.py) -/

/-- The source's default epsilon `1e-10`, as a pre-normalized rational (so
that comparisons against it evaluate definitionally). -/
def defaultEps : ℚ := ⟨1, 10000000000, by norm_num, Nat.coprime_one_left _⟩

/-- The constructor parameters of `SingleWriterOrchestrator` that influence
orchestration state, plus the clock oracle standing for `now_iso()`.
Defaults are the source's defaults. -/
structure OrchCfg where
  run_id : String
  eps_root : ℚ := defaultEps
  max_attempts : ℤ := 3
  payload_validator : JVal → Bool := ResultPayload.validate
  tolerance_checker : Option (JVal → ℚ → Bool) := none
  now : ℤ → String := fun _ => ""

/-- The mutable state of a `SingleWriterOrchestrator`: the `seq` attribute,
the `state` dict (jobs in insertion order, the three counters, and the
cached `state["seq"]`), the in-memory dedup set, and the ledger file
(modelled as the list of its parsed lines, i.e. the events appended so
far). -/
structure OrchState where
  seq : ℤ
  jobs : List Job
  done : ℤ
  failed : ℤ
  rejected : ℤ
  state_seq : ℤ
  accepted_payload_hashes : Finset JVal
  ledger : List LedgerEvent
  deriving DecidableEq

/-- The state right after `__init__` on a fresh run directory. -/
def freshState : OrchState :=
  { seq := 0, jobs := [], done := 0, failed := 0, rejected := 0,
    state_seq := 0, accepted_payload_hashes := ∅, ledger := [] }

/-- Lookup of `state["jobs"][jid]` (first match; registration keeps ids
unique, so first-match lookup agrees with dict lookup). -/
def lookupJob : List Job → String → Option Job
  | [], _ => none
  | j :: tl, jid => if j.job_id = jid then some j else lookupJob tl jid

/-- One iteration of the `register_jobs` loop: skip already-known ids,
append the record otherwise. -/
def registerOne (st : OrchState) (j : Job) : OrchState :=
  if (lookupJob st.jobs j.job_id).isSome then st
  else { st with jobs := st.jobs ++ [j] }

/-- `register_jobs`: idempotent registration. -/
def registerJobs (st : OrchState) (js : List Job) : OrchState :=
  js.foldl registerOne st

/-- Mark the first `PENDING` job `RUNNING`, returning the updated record and
list (the record returned is the `Job(**jd)` copy made after the status
write). -/
def promoteFirstPending : List Job → Option (Job × List Job)
  | [] => none
  | j :: tl =>
      if j.status = .PENDING then
        some ({ j with status := .RUNNING }, { j with status := .RUNNING } :: tl)
      else (promoteFirstPending tl).map (fun p => (p.1, j :: p.2))

/-- `get_next_job`: simple FIFO scheduler. -/
def getNextJob (st : OrchState) : Option Job × OrchState :=
  match promoteFirstPending st.jobs with
  | none => (none, st)
  | some p => (some p.1, { st with jobs := p.2 })

/-- Replace the (first, hence by unique registration the only) record with
the given id by `f` of it, also returning the old record; `none` models the
`KeyError` Python raises when the id is unknown. -/
def modifyJob : List Job → String → (Job → Job) → Option (Job × List Job)
  | [], _, _ => none
  | j :: tl, jid, f =>
      if j.job_id = jid then some (j, f j :: tl)
      else (modifyJob tl jid f).map (fun p => (p.1, j :: p.2))

/-- `mark_job_done`: set status `DONE`, increment `done`. -/
def markJobDone (st : OrchState) (jid : String) : Option OrchState :=
  (modifyJob st.jobs jid (fun j => { j with status := .DONE })).map
    (fun p => { st with jobs := p.2, done := st.done + 1 })

/-- `mark_job_failed`: increment `attempts`, record the error, retry
(`PENDING`) below `max_attempts` and otherwise transition to `FAILED`,
incrementing `failed`. -/
def markJobFailed (cfg : OrchCfg) (st : OrchState) (jid : String) (err : String) :
    Option OrchState :=
  (modifyJob st.jobs jid (fun j =>
      { j with attempts := j.attempts + 1, last_error := some err,
               status := if cfg.max_attempts ≤ j.attempts + 1 then .FAILED
                         else .PENDING })).map
    (fun p =>
      { st with jobs := p.2,
                failed := if cfg.max_attempts ≤ p.1.attempts + 1 then st.failed + 1
                          else st.failed })

/-- Gate 2 of `accept_result`.  `some true` = proceed, `some false` =
`REJECTED_TOL`, `none` = an uncaught exception (`"root_val" in payload` on a
non-container, or `float(payload["root_val"])` failing, or indexing a
non-dict container). -/
def toleranceGate (cfg : OrchCfg) (payload : JVal) : Option Bool :=
  match cfg.tolerance_checker with
  | some chk => some (chk payload cfg.eps_root)
  | none =>
      match pyContains payload "root_val" with
      | .error _ => none
      | .ok false => some true
      | .ok true =>
          match payload with
          | .jobj fs =>
              match pyFloat ((findKey fs "root_val").getD .jnull) with
              | none => none
              | some rv => some (if |rv| > cfg.eps_root then false else true)
          | _ => none

/-- The atomic-acceptance tail of `accept_result`: assign the next `seq`,
build the event (timestamp from the clock oracle), append it to the ledger,
add the payload hash to the dedup set, cache `seq` into the state dict. -/
def acceptUpdate (cfg : OrchCfg) (st : OrchState) (worker_id : ℤ)
    (job_id : String) (payload : JVal) : OrchState :=
  let seq' := st.seq + 1
  let evt := LedgerEvent.from_parts cfg.run_id worker_id job_id seq' payload
      (cfg.now seq')
  { st with seq := seq',
            ledger := st.ledger ++ [evt],
            accepted_payload_hashes :=
              insert (sha256_json payload) st.accepted_payload_hashes,
            state_seq := seq' }

/-- `accept_result`: the acceptance pipeline (schema gate, tolerance gate,
dedup gate, atomic acceptance).  `none` models an uncaught exception inside
gate 2 (which leaves the state unchanged, as the source mutates nothing
before that point on the path that raises). -/
def acceptResult (cfg : OrchCfg) (st : OrchState) (worker_id : ℤ)
    (job_id : String) (payload : JVal) : Option (AcceptVerdict × OrchState) :=
  if cfg.payload_validator payload = false then
    some (.REJECTED_SCHEMA, { st with rejected := st.rejected + 1 })
  else
    match toleranceGate cfg payload with
    | none => none
    | some false => some (.REJECTED_TOL, { st with rejected := st.rejected + 1 })
    | some true =>
        if sha256_json payload ∈ st.accepted_payload_hashes then
          some (.REJECTED_DUP, st)
        else
          some (.ACCEPTED, acceptUpdate cfg st worker_id job_id payload)

/-! ## Reducer loop (orchestrator.py `reducer_loop`) -/

/-- A message drained from the inbound queue.  `other` stands for any dict
whose `kind` is neither `RESULT` nor `ERROR` (the loop ignores it); the
`None` sentinel is modelled as the end of the message list. -/
inductive Msg where
  | result (worker_id : ℤ) (job_id : String) (payload : JVal) (job_done : Bool)
  | error (job_id : String) (err : String)
  | other
  deriving Repr

/-- Processing of a single dequeued message by `reducer_loop`.  Returns the
state after the message, whether an uncaught exception killed the reducer
thread (in which case the returned state is the one at the raise point), and
the acceptance verdict if one was produced.  Note the source guards
`mark_job_done` by `verdict == "ACCEPTED"` before consulting `job_done`. -/
def stepMsg (cfg : OrchCfg) (st : OrchState) : Msg → OrchState × Bool × Option AcceptVerdict
  | .result wid jid p jdone =>
      match acceptResult cfg st wid jid p with
      | none => (st, true, none)
      | some (v, st') =>
          if v = .ACCEPTED ∧ jdone then
            match markJobDone st' jid with
            | none => (st', true, some v)
            | some st'' => (st'', false, some v)
          else (st', false, some v)
  | .error jid err =>
      match markJobFailed cfg st jid err with
      | none => (st, true, none)
      | some st' => (st', false, none)
  | .other => (st, false, none)

/-- Drain a whole message sequence through the reducer, stopping (as the
dead thread would) after an uncaught exception; also collects the verdicts
produced. -/
def processMsgs (cfg : OrchCfg) (st : OrchState) : List Msg → OrchState × List AcceptVerdict
  | [] => (st, [])
  | m :: ms =>
      let r := stepMsg cfg st m
      if r.2.1 then (r.1, r.2.2.toList)
      else
        let rest := processMsgs cfg r.1 ms
        (rest.1, r.2.2.toList ++ rest.2)

/-! ## Ledger replay (orchestrator.py `replay_ledger_for_dedup`) -/

/-- One physical line of the ledger file, classified by `json.loads`:
whitespace-only, unparseable as JSON, or parsed to a value. -/
inductive Line where
  | blank : Line
  | malformed : Line
  | val : JVal → Line
  deriving DecidableEq, Repr

/-- Replay of a single ledger line.  Blank lines are `continue`d over; a
JSON parse failure is re-raised as the explicit `RuntimeError`; a parsed
dict contributes its `payload` hash (when the payload is a dict) and its
`seq`; `int(...)` raising `TypeError` is caught and re-raised as the same
`RuntimeError`, while `ValueError` (and `.get` on a non-dict, an
`AttributeError`) escapes uncaught — either way replay aborts. -/
def replayLine (st : OrchState) : Line → Except String OrchState
  | .blank => .ok st
  | .malformed => .error "RuntimeError: Ledger parse failed (possible corruption)"
  | .val v =>
      match v with
      | .jobj fs =>
          let st1 :=
            match findKey fs "payload" with
            | some (.jobj pfs) =>
                { st with accepted_payload_hashes :=
                    insert (sha256_json (.jobj pfs)) st.accepted_payload_hashes }
            | _ => st
          match pyToInt ((findKey fs "seq").getD (.jnum 0)) with
          | .ok n => .ok { st1 with seq := max st1.seq n }
          | .error .typeError =>
              .error "RuntimeError: Ledger parse failed (possible corruption)"
          | .error .valueError => .error "ValueError"
      | _ => .error "AttributeError"

/-- The replay loop over all lines. -/
def replayLines (st : OrchState) : List Line → Except String OrchState
  | [] => .ok st
  | ln :: tl =>
      match replayLine st ln with
      | .ok st' => replayLines st' tl
      | .error e => .error e

/-- `replay_ledger_for_dedup`: replay every line, then cache the recovered
`seq` into the state dict.  A missing ledger file is the empty line list. -/
def replay_ledger_for_dedup (st : OrchState) (lines : List Line) :
    Except String OrchState :=
  match replayLines st lines with
  | .ok st' => .ok { st' with state_seq := st'.seq }
  | .error e => .error e

/-- `to_jsonl_line` applied to an event, then parsed back by `json.loads`:
`asdict` keeps dataclass field order, and the dump uses no `sort_keys`, so
the parsed line is exactly this object.  (The `hash` field is the modelled
hash value; in the file it is the corresponding hex digest string.) -/
def LedgerEvent.toJson (e : LedgerEvent) : JVal :=
  .jobj (.cons "run_id" (.jstr e.run_id)
        (.cons "worker_id" (.jnum (e.worker_id : ℚ))
        (.cons "job_id" (.jstr e.job_id)
        (.cons "seq" (.jnum (e.seq : ℚ))
        (.cons "payload" e.payload
        (.cons "ts" (.jstr e.ts)
        (.cons "hash" e.hash .nil)))))))

/-- The ledger file produced by appending the given events. -/
def serializeLedger (ledger : List LedgerEvent) : List Line :=
  ledger.map (fun e => .val e.toJson)

/-! ## Operation sequences over one orchestrator instance -/

/-- The orchestrator operations named by the job-lifecycle claims: direct
job-scheduler calls and reducer message processing. -/
inductive Op where
  | register (js : List Job)
  | getNext
  | markDone (jid : String)
  | markFailed (jid : String) (err : String)
  | msg (m : Msg)

/-- Apply one operation; the `Bool` records whether it raised an uncaught
exception (killing the calling thread), with the state at the raise point. -/
def applyOp (cfg : OrchCfg) (st : OrchState) : Op → OrchState × Bool
  | .register js => (registerJobs st js, false)
  | .getNext => ((getNextJob st).2, false)
  | .markDone jid =>
      match markJobDone st jid with
      | none => (st, true)
      | some st' => (st', false)
  | .markFailed jid err =>
      match markJobFailed cfg st jid err with
      | none => (st, true)
      | some st' => (st', false)
  | .msg m =>
      let r := stepMsg cfg st m
      (r.1, r.2.1)

/-- Run a sequence of operations, freezing the state once an operation has
raised. -/
def runOps (cfg : OrchCfg) (st : OrchState) : List Op → OrchState × Bool
  | [] => (st, false)
  | op :: ops =>
      let r := applyOp cfg st op
      if r.2 then (r.1, true) else runOps cfg r.1 ops

/-- State after the first `k` operations of a sequence. -/
def traceState (cfg : OrchCfg) (st : OrchState) (ops : List Op) (k : Nat) : OrchState :=
  (runOps cfg st (ops.take k)).1

/-- Status of the job registered under `jid` (Python would read
`state["jobs"][jid]["status"]`). -/
def jobStatus (st : OrchState) (jid : String) : Option JobStatus :=
  (lookupJob st.jobs jid).map (fun j => j.status)

/-- Attempt count of the job registered under `jid`. -/
def jobAttempts (st : OrchState) (jid : String) : Option ℤ :=
  (lookupJob st.jobs jid).map (fun j => j.attempts)

/-! ## Definitions modelled from the spec (no corresponding code in src/) -/

/-- Modelled from the spec: the job status state machine of §4.1 — the
"defined edges" `PENDING→RUNNING`, `RUNNING→DONE`, `RUNNING→PENDING`
(retry), `RUNNING→FAILED`.  The source never reifies this edge set. -/
def definedEdge : JobStatus → JobStatus → Bool
  | .PENDING, .RUNNING => true
  | .RUNNING, .DONE => true
  | .RUNNING, .PENDING => true
  | .RUNNING, .FAILED => true
  | _, _ => false

/-- One stored line passes verification: its `hash` field equals the
canonical content hash recomputed from its other fields. -/
def verifyEvent (e : LedgerEvent) : Bool :=
  e.hash = sha256_json (LedgerEvent.base e.run_id e.worker_id e.job_id e.seq e.payload e.ts)

/-- Modelled from the spec: the repository ships no full-chain verification
pass over the orchestrator ledger; §8 "Tamper detection" describes one that
"recomputes each line's hash from its other fields" and reports the indices
of the lines whose stored hash mismatches.  This is that pass. -/
def mismatchIndicesFrom (k : ℕ) : List LedgerEvent → List ℕ
  | [] => []
  | e :: tl =>
      if verifyEvent e then mismatchIndicesFrom (k + 1) tl
      else k :: mismatchIndicesFrom (k + 1) tl

/-- The indices reported by the verification pass. -/
def mismatchIndices (ledger : List LedgerEvent) : List ℕ :=
  mismatchIndicesFrom 0 ledger

/-! ## Predicates and concrete scenario inputs used by the claim theorems -/

/-- The value is a JSON object (a Python dict). -/
def isObj : JVal → Bool
  | .jobj _ => true
  | _ => false

/-- The object's (top-level) keys are pairwise distinct — automatic for any
value parsed from JSON or built as a Python dict, whose keys are unique. -/
def KeysNodup (fs : JEntries) : Prop :=
  ((entriesToList fs).map Prod.fst).Nodup

/-- Exactly one field of a stored ledger line has been mutated: the new
value differs (for the `payload` field: differs in canonical content, i.e.
the mutation is not a mere key reordering) and every other field is kept. -/
def MutatedOne (e e' : LedgerEvent) : Prop :=
  (e'.run_id ≠ e.run_id ∧ e'.worker_id = e.worker_id ∧ e'.job_id = e.job_id ∧
    e'.seq = e.seq ∧ e'.payload = e.payload ∧ e'.ts = e.ts ∧ e'.hash = e.hash) ∨
  (e'.run_id = e.run_id ∧ e'.worker_id ≠ e.worker_id ∧ e'.job_id = e.job_id ∧
    e'.seq = e.seq ∧ e'.payload = e.payload ∧ e'.ts = e.ts ∧ e'.hash = e.hash) ∨
  (e'.run_id = e.run_id ∧ e'.worker_id = e.worker_id ∧ e'.job_id ≠ e.job_id ∧
    e'.seq = e.seq ∧ e'.payload = e.payload ∧ e'.ts = e.ts ∧ e'.hash = e.hash) ∨
  (e'.run_id = e.run_id ∧ e'.worker_id = e.worker_id ∧ e'.job_id = e.job_id ∧
    e'.seq ≠ e.seq ∧ e'.payload = e.payload ∧ e'.ts = e.ts ∧ e'.hash = e.hash) ∨
  (e'.run_id = e.run_id ∧ e'.worker_id = e.worker_id ∧ e'.job_id = e.job_id ∧
    e'.seq = e.seq ∧ canon e'.payload ≠ canon e.payload ∧ e'.ts = e.ts ∧ e'.hash = e.hash) ∨
  (e'.run_id = e.run_id ∧ e'.worker_id = e.worker_id ∧ e'.job_id = e.job_id ∧
    e'.seq = e.seq ∧ e'.payload = e.payload ∧ e'.ts ≠ e.ts ∧ e'.hash = e.hash) ∨
  (e'.run_id = e.run_id ∧ e'.worker_id = e.worker_id ∧ e'.job_id = e.job_id ∧
    e'.seq = e.seq ∧ e'.payload = e.payload ∧ e'.ts = e.ts ∧ e'.hash ≠ e.hash)

/-- `1e-9`, pre-normalized. -/
def q1e9 : ℚ := ⟨1, 1000000000, by norm_num, Nat.coprime_one_left _⟩

/-- `1e-11`, pre-normalized. -/
def q1e11 : ℚ := ⟨1, 100000000000, by norm_num, Nat.coprime_one_left _⟩

/-- An orchestrator configured exactly as `run_orchestrator.main` does:
default validator, no tolerance checker, `eps_root = 1e-10`. -/
def cfgRiemann : OrchCfg := { run_id := "Latido_20260220_SINGLE_ORCH" }

/-- An orchestrator using the Mersenne schema and no tolerance checker. -/
def cfgMersenne : OrchCfg :=
  { run_id := "mersenne_run", payload_validator := MersenneResultPayload.validate }

/-- A concrete Riemann result payload with the given `root_val`. -/
def payR (rv : ℚ) : JVal :=
  .jobj (.cons "t" (.jnum 5000)
        (.cons "root_val" (.jnum rv)
        (.cons "meta" (.jobj (.cons "method" (.jstr "brent") .nil)) .nil)))

/-- `payR 0` with its fields in a different insertion order (the same Python
dict). -/
def payRperm : JVal :=
  .jobj (.cons "meta" (.jobj (.cons "method" (.jstr "brent") .nil))
        (.cons "t" (.jnum 5000)
        (.cons "root_val" (.jnum 0) .nil)))

/-- A schema-valid Mersenne payload; it has no `root_val` key. -/
def mersennePayload : JVal :=
  .jobj (.cons "p" (.jnum 31)
        (.cons "residue_hash"
          (.jstr "aaaaaaaaaaaaaaaaaaaaaaaaaaaaaaaaaaaaaaaaaaaaaaaaaaaaaaaaaaaaaaaa")
        (.cons "roundoff_max" (.jnum 0)
        (.cons "engine_version" (.jstr "gahenax-ll-v1")
        (.cons "wall_time" (.jnum 2)
        (.cons "is_prime" (.jbool true)
        (.cons "meta" (.jobj .nil) .nil)))))))

/-- One job chunk as `run_orchestrator.main` registers them. -/
def jobChunk : Job :=
  { job_id := "chunk_5000_5010", t_start := 5000, t_end := 5010, stride := 1 }

/-- The end of a job's life in the reference harness: the job is registered
and dispatched, its worker streams its (single) candidate with
`job_done=False`, then re-sends that same last payload flagged
`job_done=True` (`worker_proc`, run_orchestrator.py). -/
def opsCompletion : List Op :=
  [.register [jobChunk], .getNext,
   .msg (.result 0 "chunk_5000_5010" (payR 0) false),
   .msg (.result 0 "chunk_5000_5010" (payR 0) true)]

/-- Two operations: register a job (status `PENDING`), then process an
accepted `RESULT` for it flagged `job_done=True` without it ever having been
dispatched. -/
def opsPendingDone : List Op :=
  [.register [jobChunk], .msg (.result 0 "chunk_5000_5010" (payR 0) true)]

/-- A stored ledger line whose payload has two keys. -/
def evtTwoKeys : LedgerEvent :=
  LedgerEvent.from_parts "r" 0 "j" 1
    (.jobj (.cons "a" (.jnum 0) (.cons "b" (.jnum 1) .nil))) "t0"

/-- `evtTwoKeys` with the bytes of its stored `payload` field rewritten to
list the same two keys in the opposite order — a changed line whose payload
parses to an equal Python dict. -/
def evtTwoKeysSwapped : LedgerEvent :=
  { evtTwoKeys with payload := .jobj (.cons "b" (.jnum 1) (.cons "a" (.jnum 0) .nil)) }

/-- The discipline under which the job-lifecycle claims' edge invariant is
stated: `mark_job_done`, `mark_job_failed` and the final (`job_done`)
result handling are only invoked for jobs currently `RUNNING` (or unknown,
in which case they raise without mutating).  This is how the reference
harness drives them. -/
def goodOp (st : OrchState) : Op → Prop
  | .markDone jid => jobStatus st jid = some .RUNNING ∨ jobStatus st jid = none
  | .markFailed jid _ => jobStatus st jid = some .RUNNING ∨ jobStatus st jid = none
  | .msg (.result _ jid _ true) => jobStatus st jid = some .RUNNING ∨ jobStatus st jid = none
  | .msg (.error jid _) => jobStatus st jid = some .RUNNING ∨ jobStatus st jid = none
  | _ => True

/-- Between two states, no job's `attempts` field decreases (and no job
record disappears). -/
def AttemptsMono (st st' : OrchState) : Prop :=
  ∀ jid a, jobAttempts st jid = some a →
    ∃ a', jobAttempts st' jid = some a' ∧ a ≤ a'

/-- Between two states, every job status change follows a defined edge. -/
def EdgesOK (st st' : OrchState) : Prop :=
  ∀ jid s s', jobStatus st jid = some s → jobStatus st' jid = some s' →
    s ≠ s' → definedEdge s s' = true

/-- The inductive invariant of a run: `seq` counts the ledger, the cached
`state["seq"]` agrees, ledger events carry `seq = 1, 2, ...` in order, and
the dedup set is exactly the set of the (pairwise distinct) payload hashes
of the ledger. -/
structure InvRun (st : OrchState) : Prop where
  seq_len : st.seq = st.ledger.length
  cache : st.state_seq = st.seq
  seq_at : ∀ i (h : i < st.ledger.length), (st.ledger.get ⟨i, h⟩).seq = (i : ℤ) + 1
  hashes : st.accepted_payload_hashes =
    (st.ledger.map (fun e => sha256_json e.payload)).toFinset
  nodup : (st.ledger.map (fun e => sha256_json e.payload)).Nodup

/-! # Theorems

First a stack of structural lemmas about the embedded operations, then one
theorem per claim (with its witness or counterexample where required). -/

theorem acceptResult_cases {cfg : OrchCfg} {st st' : OrchState} {w : ℤ}
    {j : String} {p : JVal} {v : AcceptVerdict}
    (h : acceptResult cfg st w j p = some (v, st')) :
    (v = .REJECTED_SCHEMA ∧ st' = { st with rejected := st.rejected + 1 }) ∨
    (v = .REJECTED_TOL ∧ st' = { st with rejected := st.rejected + 1 }) ∨
    (v = .REJECTED_DUP ∧ st' = st) ∨
    (v = .ACCEPTED ∧ st' = acceptUpdate cfg st w j p ∧
      sha256_json p ∉ st.accepted_payload_hashes ∧
      cfg.payload_validator p = true) := by
  unfold acceptResult at h
  by_cases hv0 : cfg.payload_validator p = false
  · rw [if_pos hv0] at h
    simp only [Option.some.injEq, Prod.mk.injEq] at h
    exact Or.inl ⟨h.1.symm, h.2.symm⟩
  · rw [if_neg hv0] at h
    have hvt : cfg.payload_validator p = true := by simpa using hv0
    cases hg : toleranceGate cfg p with
    | none => rw [hg] at h; cases h
    | some b =>
        rw [hg] at h
        cases b with
        | false =>
            simp only [Option.some.injEq, Prod.mk.injEq] at h
            exact Or.inr (Or.inl ⟨h.1.symm, h.2.symm⟩)
        | true =>
            by_cases hm : sha256_json p ∈ st.accepted_payload_hashes
            · rw [if_pos hm] at h
              simp only [Option.some.injEq, Prod.mk.injEq] at h
              exact Or.inr (Or.inr (Or.inl ⟨h.1.symm, h.2.symm⟩))
            · rw [if_neg hm] at h
              simp only [Option.some.injEq, Prod.mk.injEq] at h
              exact Or.inr (Or.inr (Or.inr ⟨h.1.symm, h.2.symm, hm, hvt⟩))

theorem markJobDone_fields {st st' : OrchState} {jid : String}
    (h : markJobDone st jid = some st') :
    st'.seq = st.seq ∧ st'.state_seq = st.state_seq ∧ st'.ledger = st.ledger ∧
    st'.accepted_payload_hashes = st.accepted_payload_hashes ∧
    st'.rejected = st.rejected ∧ st'.failed = st.failed := by
  unfold markJobDone at h
  obtain ⟨p, -, rfl⟩ := Option.map_eq_some'.mp h
  exact ⟨rfl, rfl, rfl, rfl, rfl, rfl⟩

theorem markJobFailed_fields {cfg : OrchCfg} {st st' : OrchState} {jid err : String}
    (h : markJobFailed cfg st jid err = some st') :
    st'.seq = st.seq ∧ st'.state_seq = st.state_seq ∧ st'.ledger = st.ledger ∧
    st'.accepted_payload_hashes = st.accepted_payload_hashes ∧
    st'.rejected = st.rejected ∧ st'.done = st.done := by
  unfold markJobFailed at h
  obtain ⟨p, -, rfl⟩ := Option.map_eq_some'.mp h
  exact ⟨rfl, rfl, rfl, rfl, rfl, rfl⟩

theorem acceptUpdate_jobs (cfg : OrchCfg) (st : OrchState) (w : ℤ) (j : String)
    (p : JVal) : (acceptUpdate cfg st w j p).jobs = st.jobs := rfl

theorem lookupJob_modifyJob {l : List Job} {jid : String} {j : Job} (f : Job → Job)
    (hid : ∀ jb, (f jb).job_id = jb.job_id)
    (hj : lookupJob l jid = some j) :
    ∃ l', modifyJob l jid f = some (j, l') ∧
      lookupJob l' jid = some (f j) ∧
      ∀ jid2, jid2 ≠ jid → lookupJob l' jid2 = lookupJob l jid2 := by
  induction l with
  | nil => simp [lookupJob] at hj
  | cons hd tl ih =>
      by_cases hhd : hd.job_id = jid
      · simp only [lookupJob, if_pos hhd] at hj
        injection hj with hj
        subst hj
        refine ⟨f hd :: tl, ?_, ?_, ?_⟩
        · simp [modifyJob, if_pos hhd]
        · simp [lookupJob, hid, hhd]
        · intro jid2 hne
          simp [lookupJob, hid, hhd, hne.symm]
      · simp only [lookupJob, if_neg hhd] at hj
        obtain ⟨l', hmod, hlook, hother⟩ := ih hj
        refine ⟨hd :: l', ?_, ?_, ?_⟩
        · simp [modifyJob, if_neg hhd, hmod]
        · simp [lookupJob, if_neg hhd, hlook]
        · intro jid2 hne
          by_cases h2 : hd.job_id = jid2
          · simp [lookupJob, if_pos h2]
          · simp [lookupJob, if_neg h2, hother jid2 hne]

theorem modifyJob_none {l : List Job} {jid : String} (f : Job → Job)
    (hj : lookupJob l jid = none) : modifyJob l jid f = none := by
  induction l with
  | nil => rfl
  | cons hd tl ih =>
      by_cases hhd : hd.job_id = jid
      · simp [lookupJob, if_pos hhd] at hj
      · simp only [lookupJob, if_neg hhd] at hj
        simp [modifyJob, if_neg hhd, ih hj]

/-- **C8** (confirmed): for a registered job, every `mark_failed` call
increments its `attempts` by exactly one and records the error; if the
attempts count after the increment is below `max_attempts` the status
returns to `PENDING` (retry), otherwise the status becomes `FAILED` and
`failed_count` increments by exactly one — so, `attempts` counting the
reported failures, the job is `FAILED` after a call exactly when that call
is (at least) its `max_attempts`-th reported failure. -/
theorem mark_failed_retry_or_fail (cfg : OrchCfg) (st : OrchState)
    (jid err : String) (j : Job) (hj : lookupJob st.jobs jid = some j) :
    ∃ st', markJobFailed cfg st jid err = some st' ∧
      jobAttempts st' jid = some (j.attempts + 1) ∧
      (lookupJob st'.jobs jid).map Job.last_error = some (some err) ∧
      jobStatus st' jid =
        some (if j.attempts + 1 < cfg.max_attempts then .PENDING else .FAILED) ∧
      (j.attempts + 1 < cfg.max_attempts → st'.failed = st.failed) ∧
      (¬ j.attempts + 1 < cfg.max_attempts → st'.failed = st.failed + 1) ∧
      (jobStatus st' jid = some .FAILED ↔ cfg.max_attempts ≤ j.attempts + 1) := by
  obtain ⟨l', hmod, hlook, -⟩ :=
    lookupJob_modifyJob
      (fun jb =>
        { jb with attempts := jb.attempts + 1,
                  last_error := some err,
                  status := if cfg.max_attempts ≤ jb.attempts + 1 then .FAILED
                            else .PENDING })
      (fun jb => rfl) hj
  refine ⟨_, by unfold markJobFailed; rw [hmod]; rfl, ?_, ?_, ?_, ?_, ?_, ?_⟩
  · simp [jobAttempts, hlook]
  · simp [hlook]
  · by_cases hlt : j.attempts + 1 < cfg.max_attempts
    · simp [jobStatus, hlook, hlt, not_le.mpr hlt]
    · simp [jobStatus, hlook, hlt, not_lt.mp hlt]
  · intro hlt
    simp [not_le.mpr hlt]
  · intro hge
    simp [not_lt.mp hge]
  · by_cases hle : cfg.max_attempts ≤ j.attempts + 1
    · simp [jobStatus, hlook, hle]
    · simp [jobStatus, hlook, hle]

theorem mark_failed_retry_or_fail_witness :
    (lookupJob ({ freshState with
        jobs := [{ jobChunk with status := .RUNNING }] } : OrchState).jobs
        "chunk_5000_5010" = some { jobChunk with status := .RUNNING }) ∧
    (∃ st', markJobFailed cfgRiemann
          { freshState with jobs := [{ jobChunk with status := .RUNNING }] }
          "chunk_5000_5010" "boom" = some st' ∧
      jobAttempts st' "chunk_5000_5010" =
        some ({ jobChunk with status := JobStatus.RUNNING }.attempts + 1) ∧
      (lookupJob st'.jobs "chunk_5000_5010").map Job.last_error = some (some "boom") ∧
      jobStatus st' "chunk_5000_5010" =
        some (if { jobChunk with status := JobStatus.RUNNING }.attempts + 1 <
                cfgRiemann.max_attempts then .PENDING else .FAILED) ∧
      ({ jobChunk with status := JobStatus.RUNNING }.attempts + 1 <
          cfgRiemann.max_attempts →
        st'.failed = ({ freshState with
          jobs := [{ jobChunk with status := .RUNNING }] } : OrchState).failed) ∧
      (¬ { jobChunk with status := JobStatus.RUNNING }.attempts + 1 <
          cfgRiemann.max_attempts →
        st'.failed = ({ freshState with
          jobs := [{ jobChunk with status := .RUNNING }] } : OrchState).failed + 1) ∧
      (jobStatus st' "chunk_5000_5010" = some .FAILED ↔
        cfgRiemann.max_attempts ≤
          { jobChunk with status := JobStatus.RUNNING }.attempts + 1)) :=
  ⟨by decide,
   mark_failed_retry_or_fail cfgRiemann
     { freshState with jobs := [{ jobChunk with status := .RUNNING }] }
     "chunk_5000_5010" "boom" { jobChunk with status := .RUNNING } (by decide)⟩

/-- **C10** (confirmed): with `tolerance_checker = None` and the Mersenne
schema validator, a schema-valid payload without a `"root_val"` key skips
the tolerance gate entirely (the gate passes for every `eps_root`, no
tolerance check being applied), and such a payload, if non-duplicate, is
`ACCEPTED`. -/
theorem mersenne_no_root_val_skips_tolerance (cfg : OrchCfg) (st : OrchState)
    (w : ℤ) (jid : String) (p : JVal)
    (hval : cfg.payload_validator = MersenneResultPayload.validate)
    (htol : cfg.tolerance_checker = none)
    (hp : MersenneResultPayload.validate p = true)
    (hnro : pyContains p "root_val" = .ok false)
    (hdup : sha256_json p ∉ st.accepted_payload_hashes) :
    toleranceGate cfg p = some true ∧
    acceptResult cfg st w jid p = some (.ACCEPTED, acceptUpdate cfg st w jid p) := by
  have hgate : toleranceGate cfg p = some true := by
    unfold toleranceGate
    rw [htol, hnro]
  refine ⟨hgate, ?_⟩
  unfold acceptResult
  rw [hval, hp, hgate]
  simp [hdup]

theorem mersenne_no_root_val_skips_tolerance_witness :
    (cfgMersenne.payload_validator = MersenneResultPayload.validate ∧
     cfgMersenne.tolerance_checker = none ∧
     MersenneResultPayload.validate mersennePayload = true ∧
     pyContains mersennePayload "root_val" = .ok false ∧
     sha256_json mersennePayload ∉ freshState.accepted_payload_hashes) ∧
    (toleranceGate cfgMersenne mersennePayload = some true ∧
     acceptResult cfgMersenne freshState 0 "mjob" mersennePayload =
       some (.ACCEPTED, acceptUpdate cfgMersenne freshState 0 "mjob" mersennePayload)) :=
  ⟨⟨rfl, rfl, by decide, by decide, by decide⟩,
   mersenne_no_root_val_skips_tolerance cfgMersenne freshState 0 "mjob"
     mersennePayload rfl rfl (by decide) (by decide) (by decide)⟩

/-- **C5** (counterexample): the claim states the default tolerance gate
passes iff `|root_val|` is strictly below `eps_root`.  At the boundary
`root_val = eps_root = 1e-10` the source's test `abs(root_val) > eps_root`
is false, so the payload passes the gate and is `ACCEPTED`, although its
`|root_val|` is not below `eps_root`. -/
theorem default_tolerance_gate_le_counterexample :
    toleranceGate cfgRiemann (payR defaultEps) = some true ∧
    (acceptResult cfgRiemann freshState 0 "chunk_5000_5010"
        (payR defaultEps)).map Prod.fst = some .ACCEPTED ∧
    ¬ |defaultEps| < cfgRiemann.eps_root := by
  refine ⟨by decide, by decide, by decide⟩

/-- **C5** (amended): with no custom tolerance checker, a payload carrying a
float-convertible `root_val` passes the default tolerance gate iff
`|root_val| ≤ eps_root` (the gate rejects only values strictly above the
epsilon); failure yields `REJECTED_TOL` and increments `rejected_count`;
and with `eps_root = 1e-10` a payload with `root_val = 1e-9` is
`REJECTED_TOL` while a schema-valid, non-duplicate payload with
`root_val = 1e-11` is `ACCEPTED`. -/
theorem default_tolerance_gate_le :
    (∀ (cfg : OrchCfg) (fs : JEntries) (rv : ℚ),
      cfg.tolerance_checker = none →
      hasKey fs "root_val" = true →
      pyFloat ((findKey fs "root_val").getD .jnull) = some rv →
      (toleranceGate cfg (.jobj fs) = some true ↔ |rv| ≤ cfg.eps_root)) ∧
    (∀ (cfg : OrchCfg) (st : OrchState) (w : ℤ) (jid : String) (p : JVal),
      cfg.payload_validator p = true →
      toleranceGate cfg p = some false →
      acceptResult cfg st w jid p =
        some (.REJECTED_TOL, { st with rejected := st.rejected + 1 })) ∧
    (acceptResult cfgRiemann freshState 0 "chunk_5000_5010" (payR q1e9) =
      some (.REJECTED_TOL, { freshState with rejected := 1 })) ∧
    (acceptResult cfgRiemann freshState 0 "chunk_5000_5010" (payR q1e11) =
      some (.ACCEPTED,
        acceptUpdate cfgRiemann freshState 0 "chunk_5000_5010" (payR q1e11))) := by
  refine ⟨?_, ?_, by decide, by decide⟩
  · intro cfg fs rv htol hk hf
    unfold toleranceGate
    rw [htol]
    simp only [pyContains, hk]
    rw [hf]
    by_cases hgt : |rv| > cfg.eps_root
    · simp [hgt, not_le.mpr hgt]
    · simp [hgt, not_lt.mp hgt]
  · intro cfg st w jid p hv hg
    unfold acceptResult
    rw [hv, hg]
    simp

theorem default_tolerance_gate_le_witness :
    (cfgRiemann.tolerance_checker = none ∧
     hasKey (.cons "t" (.jnum 5000)
        (.cons "root_val" (.jnum 0)
        (.cons "meta" (.jobj (.cons "method" (.jstr "brent") .nil)) .nil)))
        "root_val" = true ∧
     pyFloat ((findKey (.cons "t" (.jnum 5000)
        (.cons "root_val" (.jnum 0)
        (.cons "meta" (.jobj (.cons "method" (.jstr "brent") .nil)) .nil)))
        "root_val").getD .jnull) = some 0) ∧
    (toleranceGate cfgRiemann (payR 0) = some true ↔
      |(0 : ℚ)| ≤ cfgRiemann.eps_root) :=
  ⟨⟨rfl, by decide, by decide⟩,
   default_tolerance_gate_le.1 cfgRiemann
     (.cons "t" (.jnum 5000)
        (.cons "root_val" (.jnum 0)
        (.cons "meta" (.jobj (.cons "method" (.jstr "brent") .nil)) .nil)))
     0 rfl (by decide) (by decide)⟩

/-- **C4** (counterexample): the claim states a malformed line at any
position aborts replay and that no ledger line is ever silently skipped.
But a blank line is silently `continue`d over (replaying it is
indistinguishable from replaying the empty ledger), and a line that parses
as JSON yet is not a ledger event at all (here: the empty object) is
processed without any abort. -/
theorem replay_not_strict_counterexample :
    replay_ledger_for_dedup freshState [Line.blank] = .ok freshState ∧
    replay_ledger_for_dedup freshState [Line.blank] =
      replay_ledger_for_dedup freshState [] ∧
    replay_ledger_for_dedup freshState [Line.val (.jobj .nil)] = .ok freshState := by
  refine ⟨by decide, by decide, by decide⟩

theorem replayLines_malformed {lines : List Line} (st : OrchState)
    (hm : Line.malformed ∈ lines) : ∃ msg, replayLines st lines = .error msg := by
  induction lines generalizing st with
  | nil => cases hm
  | cons ln tl ih =>
      rcases List.mem_cons.mp hm with h | h
      · subst h
        exact ⟨_, rfl⟩
      · unfold replayLines
        cases hr : replayLine st ln with
        | ok st' => exact ih st' h
        | error e => exact ⟨e, rfl⟩

/-- **C4** (amended): a line that fails to parse as JSON, at any position in
the ledger, causes `replay_ledger_for_dedup` to abort with an error; but
blank lines are silently skipped, and parseable lines are processed even
when they are not well-formed events (see the counterexample). -/
theorem replay_malformed_aborts (st : OrchState) (lines : List Line)
    (hm : Line.malformed ∈ lines) :
    ∃ msg, replay_ledger_for_dedup st lines = .error msg := by
  obtain ⟨msg, hmsg⟩ := replayLines_malformed st hm
  exact ⟨msg, by unfold replay_ledger_for_dedup; rw [hmsg]⟩

theorem replay_malformed_aborts_witness :
    (Line.malformed ∈ [Line.val evtTwoKeys.toJson, Line.malformed]) ∧
    (∃ msg, replay_ledger_for_dedup freshState
        [Line.val evtTwoKeys.toJson, Line.malformed] = .error msg) :=
  ⟨by decide,
   replay_malformed_aborts freshState [Line.val evtTwoKeys.toJson, Line.malformed]
     (by decide)⟩

theorem ratTrunc_intCast (n : ℤ) : ratTrunc ((n : ℤ) : ℚ) = n := by
  unfold ratTrunc
  rcases le_or_lt 0 n with h | h
  · rw [if_pos (by exact_mod_cast h)]
    simp [Rat.floor, Rat.den_intCast, Rat.num_intCast]
  · rw [if_neg (not_le.mpr (by exact_mod_cast h))]
    rw [show -((n:ℤ):ℚ) = ((-n : ℤ) : ℚ) by push_cast; ring]
    simp [Rat.floor, Rat.den_intCast, Rat.num_intCast]

theorem inv_of_fields {st st' : OrchState} (hinv : InvRun st)
    (h1 : st'.seq = st.seq) (h2 : st'.state_seq = st.state_seq)
    (h3 : st'.ledger = st.ledger)
    (h4 : st'.accepted_payload_hashes = st.accepted_payload_hashes) :
    InvRun st' := by
  constructor
  · rw [h1, h3]; exact hinv.seq_len
  · rw [h2, h1]; exact hinv.cache
  · intro i hlt
    have hlt' : i < st.ledger.length := h3 ▸ hlt
    have h0 := hinv.seq_at i hlt'
    rw [List.get_eq_getElem] at h0 ⊢
    simp only [h3]
    exact h0
  · rw [h4, h3]; exact hinv.hashes
  · rw [h3]; exact hinv.nodup

theorem inv_fresh : InvRun freshState := by
  constructor
  · rfl
  · rfl
  · intro i hlt; cases hlt
  · rfl
  · exact List.nodup_nil

theorem ledger_snoc_inv {st : OrchState} (evt : LedgerEvent) (hinv : InvRun st)
    (hseqevt : evt.seq = st.seq + 1)
    (hnew : sha256_json evt.payload ∉ st.accepted_payload_hashes) :
    InvRun { st with seq := st.seq + 1,
                     ledger := st.ledger ++ [evt],
                     accepted_payload_hashes :=
                       insert (sha256_json evt.payload) st.accepted_payload_hashes,
                     state_seq := st.seq + 1 } := by
  have hlen := hinv.seq_len
  have hmem : sha256_json evt.payload ∉
      st.ledger.map (fun e => sha256_json e.payload) := by
    intro hm; exact hnew (hinv.hashes ▸ List.mem_toFinset.mpr hm)
  constructor
  · show st.seq + 1 = ((st.ledger ++ [evt]).length : ℤ)
    simp [hlen]
  · rfl
  · intro i hlt
    show (List.get (st.ledger ++ [evt]) ⟨i, hlt⟩).seq = (i : ℤ) + 1
    simp only [List.length_append, List.length_singleton] at hlt
    rw [List.get_eq_getElem]
    rcases Nat.lt_succ_iff_lt_or_eq.mp hlt with hi | hi
    · rw [List.getElem_append_left hi]
      have h0 := hinv.seq_at i hi
      rw [List.get_eq_getElem] at h0
      exact h0
    · subst hi
      rw [List.getElem_concat_length st.ledger evt st.ledger.length rfl]
      rw [hseqevt, hlen]
  · show insert (sha256_json evt.payload) st.accepted_payload_hashes =
      ((st.ledger ++ [evt]).map (fun e => sha256_json e.payload)).toFinset
    rw [hinv.hashes]
    simp [Finset.insert_eq, Finset.union_comm]
  · show ((st.ledger ++ [evt]).map (fun e => sha256_json e.payload)).Nodup
    simp only [List.map_append, List.map_cons, List.map_nil]
    rw [List.nodup_append]
    refine ⟨hinv.nodup, List.nodup_singleton _, ?_⟩
    intro x hx hmx
    simp only [List.mem_singleton] at hmx
    subst hmx
    exact hmem hx

theorem acceptUpdate_inv {st : OrchState} (cfg : OrchCfg) (w : ℤ) (jid : String)
    (p : JVal) (hinv : InvRun st)
    (hnew : sha256_json p ∉ st.accepted_payload_hashes) :
    InvRun (acceptUpdate cfg st w jid p) ∧
    (acceptUpdate cfg st w jid p).ledger.length = st.ledger.length + 1 := by
  refine ⟨?_, by simp [acceptUpdate]⟩
  exact ledger_snoc_inv
    (LedgerEvent.from_parts cfg.run_id w jid (st.seq + 1) p (cfg.now (st.seq + 1)))
    hinv rfl hnew

theorem stepMsg_inv (cfg : OrchCfg) {st : OrchState} (m : Msg) (hinv : InvRun st) :
    InvRun (stepMsg cfg st m).1 ∧
    (stepMsg cfg st m).1.ledger.length =
      st.ledger.length +
        (if (stepMsg cfg st m).2.2 = some .ACCEPTED then 1 else 0) := by
  cases m with
  | other => exact ⟨hinv, by simp [stepMsg]⟩
  | error jid err =>
      cases hmf : markJobFailed cfg st jid err with
      | none =>
          simp only [stepMsg, hmf]
          exact ⟨hinv, by simp⟩
      | some st' =>
          obtain ⟨h1, h2, h3, h4, -, -⟩ := markJobFailed_fields hmf
          simp only [stepMsg, hmf]
          exact ⟨inv_of_fields hinv h1 h2 h3 h4, by simp [h3]⟩
  | result w jid p jd =>
      cases hac : acceptResult cfg st w jid p with
      | none =>
          simp only [stepMsg, hac]
          exact ⟨hinv, by simp⟩
      | some pr =>
          obtain ⟨v, st1⟩ := pr
          rcases acceptResult_cases hac with ⟨hv, hst⟩ | ⟨hv, hst⟩ | ⟨hv, hst⟩ |
            ⟨hv, hst, hnew, -⟩
          · subst hv; subst hst
            simp only [stepMsg, hac]
            rw [if_neg (by simp)]
            exact ⟨inv_of_fields hinv rfl rfl rfl rfl, by simp⟩
          · subst hv; subst hst
            simp only [stepMsg, hac]
            rw [if_neg (by simp)]
            exact ⟨inv_of_fields hinv rfl rfl rfl rfl, by simp⟩
          · subst hv; subst hst
            simp only [stepMsg, hac]
            rw [if_neg (by simp)]
            exact ⟨hinv, by simp⟩
          · subst hv; subst hst
            obtain ⟨hinv1, hlen1⟩ := acceptUpdate_inv cfg w jid p hinv hnew
            by_cases hjd : jd
            · subst hjd
              cases hmd : markJobDone (acceptUpdate cfg st w jid p) jid with
              | none =>
                  simp only [stepMsg, hac]
                  rw [if_pos (by simp)]
                  simp only [hmd]
                  exact ⟨hinv1, by simp [hlen1]⟩
              | some st2 =>
                  obtain ⟨h1, h2, h3, h4, -, -⟩ := markJobDone_fields hmd
                  simp only [stepMsg, hac]
                  rw [if_pos (by simp)]
                  simp only [hmd]
                  exact ⟨inv_of_fields hinv1 h1 h2 h3 h4, by simp [h3, hlen1]⟩
            · simp only [stepMsg, hac]
              rw [if_neg (by simp [hjd])]
              exact ⟨hinv1, by simp [hlen1]⟩

theorem processMsgs_inv (cfg : OrchCfg) : ∀ (msgs : List Msg) (st : OrchState),
    InvRun st →
    InvRun (processMsgs cfg st msgs).1 ∧
    (processMsgs cfg st msgs).1.ledger.length =
      st.ledger.length + (processMsgs cfg st msgs).2.count .ACCEPTED := by
  intro msgs
  induction msgs with
  | nil => exact fun st h => ⟨h, by simp [processMsgs]⟩
  | cons m ms ih =>
      intro st h
      obtain ⟨h1, h2⟩ := stepMsg_inv cfg m h
      unfold processMsgs
      by_cases hcr : (stepMsg cfg st m).2.1
      · rw [if_pos hcr]
        refine ⟨h1, ?_⟩
        rw [h2]
        cases hv : (stepMsg cfg st m).2.2 with
        | none => simp [hv] at h2 ⊢
        | some v =>
            rcases eq_or_ne v .ACCEPTED with rfl | hne
            · simp
            · simp [List.count_cons, hne]
      · rw [if_neg hcr]
        obtain ⟨h3, h4⟩ := ih (stepMsg cfg st m).1 h1
        refine ⟨h3, ?_⟩
        rw [h4, h2]
        cases hv : (stepMsg cfg st m).2.2 with
        | none => simp
        | some v =>
            rcases eq_or_ne v .ACCEPTED with rfl | hne
            · simp [List.count_cons]; omega
            · simp [hne, List.count_cons]

/-- **C7** (confirmed): starting from a fresh orchestrator, after the single
reducer has processed any sequence of messages, the ledger holds exactly one
event per `ACCEPTED` verdict, those events carry `seq` values `1, 2, ..., N`
consecutively in acceptance order (no gaps, no duplicates, each assigned
exactly once at acceptance time), and both `self.seq` and the recorded
`state["seq"]` equal `N`, the count of accepted events. -/
theorem seq_dense_from_fresh (cfg : OrchCfg) (msgs : List Msg) :
    (processMsgs cfg freshState msgs).1.ledger.length =
      (processMsgs cfg freshState msgs).2.count .ACCEPTED ∧
    (processMsgs cfg freshState msgs).1.ledger.map LedgerEvent.seq =
      (List.range ((processMsgs cfg freshState msgs).2.count .ACCEPTED)).map
        (fun k : ℕ => (k : ℤ) + 1) ∧
    (processMsgs cfg freshState msgs).1.seq =
      ((processMsgs cfg freshState msgs).2.count .ACCEPTED : ℤ) ∧
    (processMsgs cfg freshState msgs).1.state_seq =
      ((processMsgs cfg freshState msgs).2.count .ACCEPTED : ℤ) := by
  obtain ⟨hinv, hlen⟩ := processMsgs_inv cfg msgs freshState inv_fresh
  have hlen0 : (processMsgs cfg freshState msgs).1.ledger.length =
      (processMsgs cfg freshState msgs).2.count .ACCEPTED := by
    simpa [freshState] using hlen
  refine ⟨hlen0, ?_, ?_, ?_⟩
  · apply List.ext_getElem
    · simp [hlen0]
    · intro i h1 h2
      rw [List.getElem_map, List.getElem_map, List.getElem_range]
      have := hinv.seq_at i (by simpa using h1)
      rw [List.get_eq_getElem] at this
      exact this
  · rw [hinv.seq_len, hlen0]
  · rw [hinv.cache, hinv.seq_len, hlen0]

/-- **C1** (code_bug): the reference worker harness finishes every job by
re-sending its last payload flagged `job_done=True`; that payload is a
duplicate of the one just accepted, so the reducer's verdict for the final
message is `REJECTED_DUP` — and since `reducer_loop` only calls
`mark_job_done` when the verdict is `ACCEPTED`, the job stays `RUNNING`
forever, while the claim (and the spec) say the `job_done` flag completes
the job regardless of the acceptance verdict. -/
theorem result_job_done_requires_accepted :
    jobStatus (traceState cfgRiemann freshState opsCompletion 3) "chunk_5000_5010" =
      some .RUNNING ∧
    stepMsg cfgRiemann (traceState cfgRiemann freshState opsCompletion 3)
        (.result 0 "chunk_5000_5010" (payR 0) true) =
      (traceState cfgRiemann freshState opsCompletion 3, false, some .REJECTED_DUP) ∧
    jobStatus (runOps cfgRiemann freshState opsCompletion).1 "chunk_5000_5010" =
      some .RUNNING ∧
    (runOps cfgRiemann freshState opsCompletion).2 = false := by
  refine ⟨by decide, by decide, by decide, by decide⟩

theorem isObj_iff {v : JVal} : isObj v = true ↔ ∃ fs, v = .jobj fs := by
  cases v <;> simp [isObj]

theorem resultPayload_validate_obj (p : JVal)
    (h : ResultPayload.validate p = true) : isObj p = true := by
  cases p <;> simp [ResultPayload.validate, isObj] at h ⊢

theorem replayLine_serial (st : OrchState) (e : LedgerEvent) (pfs : JEntries)
    (hp : e.payload = .jobj pfs) :
    replayLine st (.val e.toJson) = .ok { st with
      accepted_payload_hashes :=
        insert (sha256_json e.payload) st.accepted_payload_hashes,
      seq := max st.seq e.seq } := by
  simp [replayLine, LedgerEvent.toJson, findKey, hp, pyToInt, ratTrunc_intCast]

theorem stepMsg_payloads_obj (cfg : OrchCfg)
    (hval : ∀ p, cfg.payload_validator p = true → isObj p = true)
    {st : OrchState} (m : Msg)
    (h : ∀ e ∈ st.ledger, isObj e.payload = true) :
    ∀ e ∈ (stepMsg cfg st m).1.ledger, isObj e.payload = true := by
  cases m with
  | other => exact h
  | error jid err =>
      cases hmf : markJobFailed cfg st jid err with
      | none => simp only [stepMsg, hmf]; exact h
      | some st' =>
          obtain ⟨-, -, h3, -, -, -⟩ := markJobFailed_fields hmf
          simp only [stepMsg, hmf]
          rw [h3]; exact h
  | result w jid p jd =>
      cases hac : acceptResult cfg st w jid p with
      | none => simp only [stepMsg, hac]; exact h
      | some pr =>
          obtain ⟨v, st1⟩ := pr
          have hgrow : ∀ e ∈ st1.ledger, isObj e.payload = true := by
            rcases acceptResult_cases hac with ⟨-, hst⟩ | ⟨-, hst⟩ | ⟨-, hst⟩ |
              ⟨-, hst, -, hvt⟩
            · subst hst; exact h
            · subst hst; exact h
            · subst hst; exact h
            · subst hst
              intro e he
              rcases List.mem_append.mp he with he | he
              · exact h e he
              · simp only [List.mem_singleton] at he
                subst he
                exact hval p hvt
          simp only [stepMsg, hac]
          by_cases hcond : v = .ACCEPTED ∧ jd = true
          · rw [if_pos hcond]
            cases hmd : markJobDone st1 jid with
            | none => exact hgrow
            | some st2 =>
                obtain ⟨-, -, h3, -, -, -⟩ := markJobDone_fields hmd
                rw [h3]; exact hgrow
          · rw [if_neg hcond]
            exact hgrow

theorem processMsgs_payloads_obj (cfg : OrchCfg)
    (hval : ∀ p, cfg.payload_validator p = true → isObj p = true) :
    ∀ (msgs : List Msg) (st : OrchState),
    (∀ e ∈ st.ledger, isObj e.payload = true) →
    ∀ e ∈ (processMsgs cfg st msgs).1.ledger, isObj e.payload = true := by
  intro msgs
  induction msgs with
  | nil => exact fun st h => h
  | cons m ms ih =>
      intro st h
      have h1 := stepMsg_payloads_obj cfg hval m h
      unfold processMsgs
      by_cases hcr : (stepMsg cfg st m).2.1
      · rw [if_pos hcr]; exact h1
      · rw [if_neg hcr]; exact ih _ h1

theorem replayLines_serialized : ∀ (es : List LedgerEvent) (st0 : OrchState),
    (∀ e ∈ es, isObj e.payload = true) →
    (∀ i (h : i < es.length), (es.get ⟨i, h⟩).seq = st0.seq + (i : ℤ) + 1) →
    replayLines st0 (serializeLedger es) = .ok
      { st0 with seq := st0.seq + es.length,
                 accepted_payload_hashes := st0.accepted_payload_hashes ∪
                   (es.map (fun e => sha256_json e.payload)).toFinset } := by
  intro es
  induction es with
  | nil =>
      intro st0 _ _
      show Except.ok st0 = _
      cases st0
      simp
  | cons e tl ih =>
      intro st0 hobj hseq
      obtain ⟨pfs, hp⟩ := isObj_iff.mp (hobj e (List.mem_cons_self e tl))
      have hE : e.seq = st0.seq + 1 := by
        have h0 := hseq 0 (by simp)
        simpa using h0
      have hmax : max st0.seq e.seq = st0.seq + 1 := by
        rw [hE]; exact max_eq_right (by omega)
      have hline := replayLine_serial st0 e pfs hp
      rw [show serializeLedger (e :: tl) = Line.val e.toJson :: serializeLedger tl
        from rfl]
      simp only [replayLines, hline, hmax]
      rw [ih _ ?_ ?_]
      · congr 1
        cases st0
        simp only [OrchState.mk.injEq]
        refine ⟨by push_cast [List.length_cons]; ring, trivial, trivial, trivial,
          trivial, trivial, ?_, trivial⟩
        rw [List.map_cons, List.toFinset_cons, Finset.insert_union, Finset.union_insert]
      · intro e' he'
        exact hobj e' (List.mem_cons_of_mem e he')
      · intro i hi
        have h0 := hseq (i + 1) (by simpa using Nat.succ_lt_succ hi)
        simp only [List.get_cons_succ] at h0
        rw [h0]
        show st0.seq + ((i : ℤ) + 1) + 1 = st0.seq + 1 + (i : ℤ) + 1
        ring

/-- **C3** (confirmed): for the ledger file produced by any run (any message
sequence driven through the reducer from a fresh orchestrator, with a
validator that — like both validators shipped in the repository — only
accepts dict payloads), a freshly constructed orchestrator (seq 0, empty
dedup index) that replays it ends with exactly `N` distinct payload hashes
in its dedup index and with `seq = N`, where `N` is the number of accepted
events of the run. -/
theorem replay_reconstructs (cfg : OrchCfg) (msgs : List Msg)
    (hval : ∀ p, cfg.payload_validator p = true → isObj p = true) :
    ∃ st', replay_ledger_for_dedup freshState
        (serializeLedger (processMsgs cfg freshState msgs).1.ledger) = .ok st' ∧
      st'.accepted_payload_hashes.card =
        (processMsgs cfg freshState msgs).2.count .ACCEPTED ∧
      st'.seq = ((processMsgs cfg freshState msgs).2.count .ACCEPTED : ℤ) ∧
      st'.state_seq = st'.seq := by
  obtain ⟨hinv, hlen⟩ := processMsgs_inv cfg msgs freshState inv_fresh
  have hlen0 : (processMsgs cfg freshState msgs).1.ledger.length =
      (processMsgs cfg freshState msgs).2.count .ACCEPTED := by
    simpa [freshState] using hlen
  have hobj := processMsgs_payloads_obj cfg hval msgs freshState
    (by intro e he; cases he)
  have hseq' : ∀ i (h : i < (processMsgs cfg freshState msgs).1.ledger.length),
      ((processMsgs cfg freshState msgs).1.ledger.get ⟨i, h⟩).seq =
        freshState.seq + (i : ℤ) + 1 := by
    intro i h
    rw [hinv.seq_at i h]
    show (i : ℤ) + 1 = 0 + (i : ℤ) + 1
    ring
  have hrl := replayLines_serialized _ freshState hobj hseq'
  refine ⟨_, by unfold replay_ledger_for_dedup; rw [hrl], ?_, ?_, rfl⟩
  · show (freshState.accepted_payload_hashes ∪
      ((processMsgs cfg freshState msgs).1.ledger.map
        (fun e => sha256_json e.payload)).toFinset).card = _
    rw [show freshState.accepted_payload_hashes = ∅ from rfl, Finset.empty_union,
      List.toFinset_card_of_nodup hinv.nodup, List.length_map, hlen0]
  · show freshState.seq + ((processMsgs cfg freshState msgs).1.ledger.length : ℤ) = _
    rw [show freshState.seq = 0 from rfl, zero_add, hlen0]

theorem replay_reconstructs_witness :
    (∀ p, cfgRiemann.payload_validator p = true → isObj p = true) ∧
    (∃ st', replay_ledger_for_dedup freshState
        (serializeLedger (processMsgs cfgRiemann freshState
          [Msg.result 0 "chunk_5000_5010" (payR 0) false]).1.ledger) = .ok st' ∧
      st'.accepted_payload_hashes.card =
        (processMsgs cfgRiemann freshState
          [Msg.result 0 "chunk_5000_5010" (payR 0) false]).2.count .ACCEPTED ∧
      st'.seq = ((processMsgs cfgRiemann freshState
          [Msg.result 0 "chunk_5000_5010" (payR 0) false]).2.count .ACCEPTED : ℤ) ∧
      st'.state_seq = st'.seq) :=
  ⟨resultPayload_validate_obj,
   replay_reconstructs cfgRiemann [Msg.result 0 "chunk_5000_5010" (payR 0) false]
     resultPayload_validate_obj⟩

theorem entriesToList_insertEntry (k : String) (v : JVal) :
    ∀ e : JEntries,
      List.Perm (entriesToList (insertEntry k v e)) ((k, v) :: entriesToList e)
  | .nil => List.Perm.refl _
  | .cons k' v' tl => by
      unfold insertEntry
      by_cases hle : keyLE k k'
      · rw [if_pos hle]
        exact List.Perm.refl _
      · rw [if_neg hle]
        show List.Perm ((k', v') :: entriesToList (insertEntry k v tl)) _
        exact ((entriesToList_insertEntry k v tl).cons (k', v')).trans
          (List.Perm.swap _ _ _)

theorem entriesToList_sortEntries :
    ∀ e : JEntries, List.Perm (entriesToList (sortEntries e)) (entriesToList e)
  | .nil => List.Perm.refl _
  | .cons k v tl =>
      (entriesToList_insertEntry k v (sortEntries tl)).trans
        ((entriesToList_sortEntries tl).cons (k, v))

theorem entriesToList_canonEntries :
    ∀ e : JEntries, entriesToList (canonEntries e) =
      (entriesToList e).map (fun q => (q.1, canon q.2))
  | .nil => rfl
  | .cons k v tl => by
      simp [canonEntries, entriesToList, entriesToList_canonEntries tl]

theorem canon_obj_perm {fs fs' : JEntries}
    (h : canon (.jobj fs) = canon (.jobj fs')) :
    List.Perm ((entriesToList fs).map (fun q => (q.1, canon q.2)))
      ((entriesToList fs').map (fun q => (q.1, canon q.2))) := by
  have h2 : sortEntries (canonEntries fs) = sortEntries (canonEntries fs') := by
    injection h
  have p1 := entriesToList_sortEntries (canonEntries fs)
  have p2 := entriesToList_sortEntries (canonEntries fs')
  have p2' : List.Perm (entriesToList (sortEntries (canonEntries fs)))
      (entriesToList (canonEntries fs')) := by
    rw [h2]; exact p2
  rw [← entriesToList_canonEntries, ← entriesToList_canonEntries]
  exact p1.symm.trans p2'

theorem findKey_eq_none_iff :
    ∀ (fs : JEntries) (k : String),
      findKey fs k = none ↔ k ∉ (entriesToList fs).map Prod.fst
  | .nil, k => by simp [findKey, entriesToList]
  | .cons k' v' tl, k => by
      have ih := findKey_eq_none_iff tl k
      by_cases hk : k' = k
      · subst hk
        simp [findKey, entriesToList]
      · simp [findKey, hk, entriesToList, Ne.symm hk, ih]

theorem findKey_mem :
    ∀ (fs : JEntries) (k : String) (v : JVal),
      findKey fs k = some v → (k, v) ∈ entriesToList fs
  | .nil, _, _, h => by cases h
  | .cons k' v' tl, k, v, h => by
      by_cases hk : k' = k
      · subst hk
        have h' : v' = v := by simpa [findKey] using h
        subst h'
        exact List.mem_cons_self _ _
      · simp only [findKey, if_neg hk] at h
        exact List.mem_cons_of_mem _ (findKey_mem tl k v h)

theorem mem_findKey_of_nodup :
    ∀ (fs : JEntries) (k : String) (v : JVal), KeysNodup fs →
      (k, v) ∈ entriesToList fs → findKey fs k = some v
  | .nil, _, _, _, h => by cases h
  | .cons k' v' tl, k, v, hnd, h => by
      simp only [KeysNodup, entriesToList, List.map_cons, List.nodup_cons] at hnd
      rcases List.mem_cons.mp h with h0 | h0
      · cases h0
        simp [findKey]
      · have hk : k' ≠ k := by
          intro hk
          subst hk
          exact hnd.1 (List.mem_map.mpr ⟨(k', v), h0, rfl⟩)
        simp only [findKey, if_neg hk]
        exact mem_findKey_of_nodup tl k v hnd.2 h0

theorem canonEq_findKey {fs fs' : JEntries} (_hnd : KeysNodup fs)
    (hnd' : KeysNodup fs') (hceq : canon (.jobj fs) = canon (.jobj fs')) :
    ∀ k, Option.map canon (findKey fs k) = Option.map canon (findKey fs' k) := by
  intro k
  have hperm := canon_obj_perm hceq
  have hkeys : ∀ x, x ∈ (entriesToList fs).map Prod.fst ↔
      x ∈ (entriesToList fs').map Prod.fst := by
    intro x
    have h1 : ((entriesToList fs).map (fun q => (q.1, canon q.2))).map Prod.fst =
        (entriesToList fs).map Prod.fst := by
      rw [List.map_map]; rfl
    have h2 : ((entriesToList fs').map (fun q => (q.1, canon q.2))).map Prod.fst =
        (entriesToList fs').map Prod.fst := by
      rw [List.map_map]; rfl
    rw [← h1, ← h2]
    exact (hperm.map Prod.fst).mem_iff
  cases h : findKey fs k with
  | none =>
      have hout : k ∉ (entriesToList fs').map Prod.fst :=
        fun hin => ((findKey_eq_none_iff fs k).mp h) ((hkeys k).mpr hin)
      rw [(findKey_eq_none_iff fs' k).mpr hout]
  | some v =>
      have hmem : (k, canon v) ∈
          (entriesToList fs).map (fun q => (q.1, canon q.2)) :=
        List.mem_map.mpr ⟨(k, v), findKey_mem fs k v h, rfl⟩
      have hmem' := hperm.mem_iff.mp hmem
      obtain ⟨⟨k2, v2⟩, hin2, heq2⟩ := List.mem_map.mp hmem'
      simp only [Prod.mk.injEq] at heq2
      obtain ⟨hk2, hv2⟩ := heq2
      subst hk2
      rw [mem_findKey_of_nodup fs' k2 v2 hnd' hin2]
      simp [hv2]

theorem pyFloat_canon (v : JVal) : pyFloat (canon v) = pyFloat v := by
  cases v <;> rfl

theorem isObj_canon (v : JVal) : isObj (canon v) = isObj v := by
  cases v <;> rfl

theorem pyFloat_of_canonEq {m m' : JVal} (h : canon m = canon m') :
    pyFloat m = pyFloat m' := by
  rw [← pyFloat_canon m, ← pyFloat_canon m', h]

theorem isObj_of_canonEq {m m' : JVal} (h : canon m = canon m') :
    isObj m = isObj m' := by
  rw [← isObj_canon m, ← isObj_canon m', h]

theorem hasKey_of_canonEq {fs fs' : JEntries} (hnd : KeysNodup fs)
    (hnd' : KeysNodup fs') (hceq : canon (.jobj fs) = canon (.jobj fs'))
    (k : String) : hasKey fs k = hasKey fs' k := by
  have h := canonEq_findKey hnd hnd' hceq k
  unfold hasKey
  cases h1 : findKey fs k <;> cases h2 : findKey fs' k <;>
    rw [h1, h2] at h <;> simp_all

theorem pyFloatD_of_canonEq {fs fs' : JEntries} (hnd : KeysNodup fs)
    (hnd' : KeysNodup fs') (hceq : canon (.jobj fs) = canon (.jobj fs'))
    (k : String) :
    pyFloat ((findKey fs k).getD .jnull) = pyFloat ((findKey fs' k).getD .jnull) := by
  have h := canonEq_findKey hnd hnd' hceq k
  cases h1 : findKey fs k <;> cases h2 : findKey fs' k <;> rw [h1, h2] at h
  case none.some => simp at h
  case some.none => simp at h
  case some.some =>
    simp only [Option.map_some', Option.some.injEq] at h
    simpa using pyFloat_of_canonEq h

theorem validate_canonEq {fs fs' : JEntries} (hnd : KeysNodup fs)
    (hnd' : KeysNodup fs') (hceq : canon (.jobj fs) = canon (.jobj fs')) :
    ResultPayload.validate (.jobj fs) = ResultPayload.validate (.jobj fs') := by
  have hfk := canonEq_findKey hnd hnd' hceq
  have hmeta : (match findKey fs "meta" with
      | some (.jobj _) => true
      | _ => false) =
      (match findKey fs' "meta" with
      | some (.jobj _) => true
      | _ => false) := by
    have h := hfk "meta"
    cases h1 : findKey fs "meta" <;> cases h2 : findKey fs' "meta" <;>
      rw [h1, h2] at h
    case none.some => simp at h
    case some.none => simp at h
    case some.some =>
      simp only [Option.map_some', Option.some.injEq] at h
      rename_i m m'
      have hio := isObj_of_canonEq h
      cases m <;> cases m' <;> simp [isObj] at hio ⊢
  show (hasKey fs "t" && hasKey fs "root_val" && hasKey fs "meta" && _ && _ && _) = _
  rw [hasKey_of_canonEq hnd hnd' hceq "t", hasKey_of_canonEq hnd hnd' hceq "root_val",
    hasKey_of_canonEq hnd hnd' hceq "meta", hmeta]
  unfold pyFloatable
  rw [pyFloatD_of_canonEq hnd hnd' hceq "t", pyFloatD_of_canonEq hnd hnd' hceq "root_val"]
  rfl

theorem toleranceGate_canonEq (cfg : OrchCfg) (htc : cfg.tolerance_checker = none)
    {fs fs' : JEntries} (hnd : KeysNodup fs) (hnd' : KeysNodup fs')
    (hceq : canon (.jobj fs) = canon (.jobj fs')) :
    toleranceGate cfg (.jobj fs) = toleranceGate cfg (.jobj fs') := by
  unfold toleranceGate
  rw [htc]
  simp only [pyContains]
  rw [hasKey_of_canonEq hnd hnd' hceq "root_val"]
  cases hasKey fs' "root_val"
  · rfl
  · rw [pyFloatD_of_canonEq hnd hnd' hceq "root_val"]

/-- **C2** (confirmed): a payload that is schema-valid (default validator),
passes the (default) tolerance gate, and is not yet in the dedup index is
`ACCEPTED`; submitting it again — possibly as a raw dict with different key
ordering at any nesting level, i.e. any form with the same canonical
content — yields `REJECTED_DUP` and returns the state unchanged in every
component (ledger file, `seq`, dedup index, job records, and all counters
including `rejected_count`), while the first acceptance grew the ledger by
exactly one line and touched no job record. -/
theorem dedup_accept_then_reject (cfg : OrchCfg) (st : OrchState) (w w' : ℤ)
    (jid jid' : String) (fs fs' : JEntries)
    (hvd : cfg.payload_validator = ResultPayload.validate)
    (htc : cfg.tolerance_checker = none)
    (hnd : KeysNodup fs) (hnd' : KeysNodup fs')
    (hceq : canon (.jobj fs) = canon (.jobj fs'))
    (hvalid : ResultPayload.validate (.jobj fs) = true)
    (hgate : toleranceGate cfg (.jobj fs) = some true)
    (hnew : sha256_json (.jobj fs) ∉ st.accepted_payload_hashes) :
    acceptResult cfg st w jid (.jobj fs) =
      some (.ACCEPTED, acceptUpdate cfg st w jid (.jobj fs)) ∧
    acceptResult cfg (acceptUpdate cfg st w jid (.jobj fs)) w' jid' (.jobj fs') =
      some (.REJECTED_DUP, acceptUpdate cfg st w jid (.jobj fs)) ∧
    (acceptUpdate cfg st w jid (.jobj fs)).ledger.length = st.ledger.length + 1 ∧
    (acceptUpdate cfg st w jid (.jobj fs)).jobs = st.jobs := by
  have hvalid' : ResultPayload.validate (.jobj fs') = true := by
    rw [← validate_canonEq hnd hnd' hceq]; exact hvalid
  have hgate' : toleranceGate cfg (.jobj fs') = some true := by
    rw [← toleranceGate_canonEq cfg htc hnd hnd' hceq]; exact hgate
  have hhash : sha256_json (.jobj fs') = sha256_json (.jobj fs) := by
    unfold sha256_json; exact hceq.symm
  refine ⟨?_, ?_, by simp [acceptUpdate], rfl⟩
  · unfold acceptResult
    rw [hvd, hvalid, hgate]
    simp [hnew]
  · unfold acceptResult
    rw [hvd, hvalid', hgate', hhash]
    have hmem : sha256_json (.jobj fs) ∈
        (acceptUpdate cfg st w jid (.jobj fs)).accepted_payload_hashes :=
      Finset.mem_insert_self _ _
    simp [hmem]

theorem dedup_accept_then_reject_witness :
    (cfgRiemann.payload_validator = ResultPayload.validate ∧
     cfgRiemann.tolerance_checker = none ∧
     KeysNodup (.cons "t" (.jnum 5000) (.cons "root_val" (.jnum 0)
       (.cons "meta" (.jobj (.cons "method" (.jstr "brent") .nil)) .nil))) ∧
     KeysNodup (.cons "meta" (.jobj (.cons "method" (.jstr "brent") .nil))
       (.cons "t" (.jnum 5000) (.cons "root_val" (.jnum 0) .nil))) ∧
     canon (.jobj (.cons "t" (.jnum 5000) (.cons "root_val" (.jnum 0)
       (.cons "meta" (.jobj (.cons "method" (.jstr "brent") .nil)) .nil)))) =
       canon (.jobj (.cons "meta" (.jobj (.cons "method" (.jstr "brent") .nil))
         (.cons "t" (.jnum 5000) (.cons "root_val" (.jnum 0) .nil)))) ∧
     ResultPayload.validate (.jobj (.cons "t" (.jnum 5000) (.cons "root_val" (.jnum 0)
       (.cons "meta" (.jobj (.cons "method" (.jstr "brent") .nil)) .nil)))) = true ∧
     toleranceGate cfgRiemann (.jobj (.cons "t" (.jnum 5000) (.cons "root_val" (.jnum 0)
       (.cons "meta" (.jobj (.cons "method" (.jstr "brent") .nil)) .nil)))) = some true ∧
     sha256_json (.jobj (.cons "t" (.jnum 5000) (.cons "root_val" (.jnum 0)
       (.cons "meta" (.jobj (.cons "method" (.jstr "brent") .nil)) .nil)))) ∉
       freshState.accepted_payload_hashes) ∧
    (acceptResult cfgRiemann freshState 0 "chunk_5000_5010"
        (.jobj (.cons "t" (.jnum 5000) (.cons "root_val" (.jnum 0)
          (.cons "meta" (.jobj (.cons "method" (.jstr "brent") .nil)) .nil)))) =
      some (.ACCEPTED, acceptUpdate cfgRiemann freshState 0 "chunk_5000_5010"
        (.jobj (.cons "t" (.jnum 5000) (.cons "root_val" (.jnum 0)
          (.cons "meta" (.jobj (.cons "method" (.jstr "brent") .nil)) .nil))))) ∧
     acceptResult cfgRiemann (acceptUpdate cfgRiemann freshState 0 "chunk_5000_5010"
        (.jobj (.cons "t" (.jnum 5000) (.cons "root_val" (.jnum 0)
          (.cons "meta" (.jobj (.cons "method" (.jstr "brent") .nil)) .nil))))) 1
        "chunk_5010_5020"
        (.jobj (.cons "meta" (.jobj (.cons "method" (.jstr "brent") .nil))
          (.cons "t" (.jnum 5000) (.cons "root_val" (.jnum 0) .nil)))) =
      some (.REJECTED_DUP, acceptUpdate cfgRiemann freshState 0 "chunk_5000_5010"
        (.jobj (.cons "t" (.jnum 5000) (.cons "root_val" (.jnum 0)
          (.cons "meta" (.jobj (.cons "method" (.jstr "brent") .nil)) .nil))))) ∧
     (acceptUpdate cfgRiemann freshState 0 "chunk_5000_5010"
        (.jobj (.cons "t" (.jnum 5000) (.cons "root_val" (.jnum 0)
          (.cons "meta" (.jobj (.cons "method" (.jstr "brent") .nil)) .nil))))).ledger.length =
       freshState.ledger.length + 1 ∧
     (acceptUpdate cfgRiemann freshState 0 "chunk_5000_5010"
        (.jobj (.cons "t" (.jnum 5000) (.cons "root_val" (.jnum 0)
          (.cons "meta" (.jobj (.cons "method" (.jstr "brent") .nil)) .nil))))).jobs =
       freshState.jobs) :=
  ⟨⟨rfl, rfl, by unfold KeysNodup; decide, by unfold KeysNodup; decide, by decide,
    by decide, by decide, by decide⟩,
   dedup_accept_then_reject cfgRiemann freshState 0 1 "chunk_5000_5010" "chunk_5010_5020"
     (.cons "t" (.jnum 5000) (.cons "root_val" (.jnum 0)
       (.cons "meta" (.jobj (.cons "method" (.jstr "brent") .nil)) .nil)))
     (.cons "meta" (.jobj (.cons "method" (.jstr "brent") .nil))
       (.cons "t" (.jnum 5000) (.cons "root_val" (.jnum 0) .nil)))
     rfl rfl (by unfold KeysNodup; decide) (by unfold KeysNodup; decide) (by decide)
     (by decide) (by decide) (by decide)⟩

theorem lookupJob_append_left :
    ∀ (l l2 : List Job) (jid : String) (j : Job),
      lookupJob l jid = some j → lookupJob (l ++ l2) jid = some j
  | [], _, _, _, h => by cases h
  | hd :: tl, l2, jid, j, h => by
      by_cases hk : hd.job_id = jid
      · simp only [lookupJob, if_pos hk] at h ⊢
        exact h
      · simp only [lookupJob, if_neg hk] at h ⊢
        exact lookupJob_append_left tl l2 jid j h

theorem registerJobs_lookup (js : List Job) :
    ∀ (st : OrchState) (jid : String) (j : Job),
      lookupJob st.jobs jid = some j →
      lookupJob (registerJobs st js).jobs jid = some j := by
  induction js with
  | nil => exact fun st jid j h => h
  | cons j0 js0 ih =>
      intro st jid j h
      show lookupJob (registerJobs (registerOne st j0) js0).jobs jid = some j
      apply ih
      unfold registerOne
      by_cases hknown : (lookupJob st.jobs j0.job_id).isSome
      · rw [if_pos hknown]; exact h
      · rw [if_neg hknown]
        exact lookupJob_append_left st.jobs [j0] jid j h

theorem promoteFirstPending_lookup :
    ∀ (l : List Job) (j : Job) (l' : List Job),
      promoteFirstPending l = some (j, l') → ∀ jid,
        lookupJob l' jid = lookupJob l jid ∨
        (∃ jb, lookupJob l jid = some jb ∧ jb.status = .PENDING ∧
          lookupJob l' jid = some { jb with status := .RUNNING })
  | [], _, _, h => by cases h
  | hd :: tl, j, l', h => by
      intro jid
      unfold promoteFirstPending at h
      by_cases hp : hd.status = .PENDING
      · rw [if_pos hp] at h
        simp only [Option.some.injEq, Prod.mk.injEq] at h
        obtain ⟨-, rfl⟩ := h
        by_cases hk : hd.job_id = jid
        · exact Or.inr ⟨hd, by simp [lookupJob, hk], hp, by simp [lookupJob, hk]⟩
        · left
          simp [lookupJob, hk]
      · rw [if_neg hp] at h
        cases hrec : promoteFirstPending tl with
        | none => rw [hrec] at h; cases h
        | some pr =>
            rw [hrec] at h
            simp only [Option.map_some', Option.some.injEq, Prod.mk.injEq] at h
            obtain ⟨-, rfl⟩ := h
            by_cases hk : hd.job_id = jid
            · left; simp [lookupJob, hk]
            · have := promoteFirstPending_lookup tl pr.1 pr.2 (by rw [hrec]) jid
              rcases this with h0 | ⟨jb, hjb1, hjb2, hjb3⟩
              · left; simp [lookupJob, hk, h0]
              · exact Or.inr ⟨jb, by simp [lookupJob, hk, hjb1],
                  hjb2, by simp [lookupJob, hk, hjb3]⟩

theorem attemptsMono_of_jobs_eq {st st' : OrchState} (h : st'.jobs = st.jobs) :
    AttemptsMono st st' := by
  intro jid a ha
  unfold jobAttempts at ha ⊢
  rw [h]
  exact ⟨a, ha, le_refl a⟩

theorem edgesOK_of_jobs_eq {st st' : OrchState} (h : st'.jobs = st.jobs) :
    EdgesOK st st' := by
  intro jid s s' h1 h2 hne
  unfold jobStatus at h1 h2
  rw [h] at h2
  rw [h1] at h2
  exact absurd (Option.some.inj h2) hne

theorem attemptsMono_congr {st st1 st2 : OrchState} (h : st1.jobs = st.jobs)
    (hm : AttemptsMono st1 st2) : AttemptsMono st st2 := by
  intro jid a ha
  apply hm
  unfold jobAttempts at ha ⊢
  rw [h]
  exact ha

theorem edgesOK_congr {st st1 st2 : OrchState} (h : st1.jobs = st.jobs)
    (hm : EdgesOK st1 st2) : EdgesOK st st2 := by
  intro jid s s' h1 h2 hne
  refine hm jid s s' ?_ h2 hne
  unfold jobStatus at h1 ⊢
  rw [h]
  exact h1

theorem attemptsMono_register (st : OrchState) (js : List Job) :
    AttemptsMono st (registerJobs st js) := by
  intro jid a ha
  unfold jobAttempts at ha ⊢
  obtain ⟨j, hj, rfl⟩ := Option.map_eq_some'.mp ha
  rw [registerJobs_lookup js st jid j hj]
  exact ⟨j.attempts, rfl, le_refl _⟩

theorem edgesOK_register (st : OrchState) (js : List Job) :
    EdgesOK st (registerJobs st js) := by
  intro jid s s' h1 h2 hne
  unfold jobStatus at h1 h2
  obtain ⟨j, hj, rfl⟩ := Option.map_eq_some'.mp h1
  rw [registerJobs_lookup js st jid j hj] at h2
  exact absurd (Option.some.inj h2) hne

theorem attemptsMono_getNext (st : OrchState) :
    AttemptsMono st (getNextJob st).2 := by
  unfold getNextJob
  cases hpr : promoteFirstPending st.jobs with
  | none => exact fun jid a ha => ⟨a, ha, le_refl a⟩
  | some pr =>
      intro jid a ha
      unfold jobAttempts at ha ⊢
      obtain ⟨j, hj, rfl⟩ := Option.map_eq_some'.mp ha
      rcases promoteFirstPending_lookup st.jobs pr.1 pr.2 (by rw [hpr]) jid with
        h0 | ⟨jb, hjb1, -, hjb3⟩
      · show ∃ a', (lookupJob pr.2 jid).map Job.attempts = some a' ∧ _
        rw [h0, hj]
        exact ⟨j.attempts, rfl, le_refl _⟩
      · rw [hj] at hjb1
        cases Option.some.inj hjb1
        show ∃ a', (lookupJob pr.2 jid).map Job.attempts = some a' ∧ _
        rw [hjb3]
        exact ⟨j.attempts, rfl, le_refl _⟩

theorem edgesOK_getNext (st : OrchState) : EdgesOK st (getNextJob st).2 := by
  unfold getNextJob
  cases hpr : promoteFirstPending st.jobs with
  | none => exact edgesOK_of_jobs_eq rfl
  | some pr =>
      intro jid s s' h1 h2 hne
      unfold jobStatus at h1 h2
      obtain ⟨j, hj, rfl⟩ := Option.map_eq_some'.mp h1
      rcases promoteFirstPending_lookup st.jobs pr.1 pr.2 (by rw [hpr]) jid with
        h0 | ⟨jb, hjb1, hjb2, hjb3⟩
      · rw [show (({ st with jobs := pr.2 } : OrchState)).jobs = pr.2 from rfl,
          h0, hj] at h2
        exact absurd (Option.some.inj h2) hne
      · rw [hj] at hjb1
        cases Option.some.inj hjb1
        rw [show (({ st with jobs := pr.2 } : OrchState)).jobs = pr.2 from rfl,
          hjb3] at h2
        have hs' : s' = .RUNNING := (Option.some.inj h2).symm
        subst hs'
        rw [hjb2]
        rfl

theorem attemptsMono_markDone (st : OrchState) (jid0 : String) (st' : OrchState)
    (h : markJobDone st jid0 = some st') : AttemptsMono st st' := by
  cases hl : lookupJob st.jobs jid0 with
  | none =>
      rw [show markJobDone st jid0 = none by
        unfold markJobDone; rw [modifyJob_none _ hl]; rfl] at h
      cases h
  | some j =>
      obtain ⟨l', hmod, hlook, hother⟩ :=
        lookupJob_modifyJob (fun jb => { jb with status := .DONE })
          (fun jb => rfl) hl
      rw [show markJobDone st jid0 =
          some { st with jobs := l', done := st.done + 1 } by
        unfold markJobDone; rw [hmod]; rfl] at h
      cases h
      intro jid a ha
      unfold jobAttempts at ha ⊢
      obtain ⟨jx, hjx, rfl⟩ := Option.map_eq_some'.mp ha
      by_cases hk : jid = jid0
      · subst hk
        rw [hjx] at hl
        have hji := Option.some.inj hl
        subst hji
        rw [hlook]
        exact ⟨jx.attempts, rfl, le_refl _⟩
      · rw [show lookupJob l' jid = lookupJob st.jobs jid from hother jid hk, hjx]
        exact ⟨jx.attempts, rfl, le_refl _⟩

theorem edgesOK_markDone (st : OrchState) (jid0 : String) (st' : OrchState)
    (hg : jobStatus st jid0 = some .RUNNING ∨ jobStatus st jid0 = none)
    (h : markJobDone st jid0 = some st') : EdgesOK st st' := by
  cases hl : lookupJob st.jobs jid0 with
  | none =>
      rw [show markJobDone st jid0 = none by
        unfold markJobDone; rw [modifyJob_none _ hl]; rfl] at h
      cases h
  | some j =>
      have hrun : j.status = .RUNNING := by
        rcases hg with hg | hg
        · unfold jobStatus at hg
          rw [hl] at hg
          exact Option.some.inj hg
        · unfold jobStatus at hg
          rw [hl] at hg
          cases hg
      obtain ⟨l', hmod, hlook, hother⟩ :=
        lookupJob_modifyJob (fun jb => { jb with status := .DONE })
          (fun jb => rfl) hl
      rw [show markJobDone st jid0 =
          some { st with jobs := l', done := st.done + 1 } by
        unfold markJobDone; rw [hmod]; rfl] at h
      cases h
      intro jid s s' h1 h2 hne
      unfold jobStatus at h1 h2
      obtain ⟨jx, hjx, rfl⟩ := Option.map_eq_some'.mp h1
      by_cases hk : jid = jid0
      · subst hk
        rw [hjx] at hl
        have hji := Option.some.inj hl
        subst hji
        rw [hlook] at h2
        have : s' = .DONE := (Option.some.inj h2).symm
        subst this
        rw [hrun]
        rfl
      · rw [show lookupJob l' jid = lookupJob st.jobs jid from hother jid hk,
          hjx] at h2
        exact absurd (Option.some.inj h2) hne

theorem attemptsMono_markFailed (cfg : OrchCfg) (st : OrchState)
    (jid0 err : String) (st' : OrchState)
    (h : markJobFailed cfg st jid0 err = some st') : AttemptsMono st st' := by
  cases hl : lookupJob st.jobs jid0 with
  | none =>
      rw [show markJobFailed cfg st jid0 err = none by
        unfold markJobFailed; rw [modifyJob_none _ hl]; rfl] at h
      cases h
  | some j =>
      obtain ⟨l', hmod, hlook, hother⟩ :=
        lookupJob_modifyJob (fun jb =>
          { jb with attempts := jb.attempts + 1,
                    last_error := some err,
                    status := if cfg.max_attempts ≤ jb.attempts + 1 then .FAILED
                              else .PENDING })
          (fun jb => rfl) hl
      rw [show markJobFailed cfg st jid0 err = some
          { st with jobs := l',
                    failed := if cfg.max_attempts ≤ j.attempts + 1 then st.failed + 1
                              else st.failed } by
        unfold markJobFailed; rw [hmod]; rfl] at h
      cases h
      intro jid a ha
      unfold jobAttempts at ha ⊢
      obtain ⟨jx, hjx, rfl⟩ := Option.map_eq_some'.mp ha
      by_cases hk : jid = jid0
      · subst hk
        rw [hjx] at hl
        have hji := Option.some.inj hl
        subst hji
        rw [hlook]
        exact ⟨jx.attempts + 1, rfl, by omega⟩
      · rw [show lookupJob l' jid = lookupJob st.jobs jid from hother jid hk, hjx]
        exact ⟨jx.attempts, rfl, le_refl _⟩

theorem edgesOK_markFailed (cfg : OrchCfg) (st : OrchState)
    (jid0 err : String) (st' : OrchState)
    (hg : jobStatus st jid0 = some .RUNNING ∨ jobStatus st jid0 = none)
    (h : markJobFailed cfg st jid0 err = some st') : EdgesOK st st' := by
  cases hl : lookupJob st.jobs jid0 with
  | none =>
      rw [show markJobFailed cfg st jid0 err = none by
        unfold markJobFailed; rw [modifyJob_none _ hl]; rfl] at h
      cases h
  | some j =>
      have hrun : j.status = .RUNNING := by
        rcases hg with hg | hg
        · unfold jobStatus at hg
          rw [hl] at hg
          exact Option.some.inj hg
        · unfold jobStatus at hg
          rw [hl] at hg
          cases hg
      obtain ⟨l', hmod, hlook, hother⟩ :=
        lookupJob_modifyJob (fun jb =>
          { jb with attempts := jb.attempts + 1,
                    last_error := some err,
                    status := if cfg.max_attempts ≤ jb.attempts + 1 then .FAILED
                              else .PENDING })
          (fun jb => rfl) hl
      rw [show markJobFailed cfg st jid0 err = some
          { st with jobs := l',
                    failed := if cfg.max_attempts ≤ j.attempts + 1 then st.failed + 1
                              else st.failed } by
        unfold markJobFailed; rw [hmod]; rfl] at h
      cases h
      intro jid s s' h1 h2 hne
      unfold jobStatus at h1 h2
      obtain ⟨jx, hjx, rfl⟩ := Option.map_eq_some'.mp h1
      by_cases hk : jid = jid0
      · subst hk
        rw [hjx] at hl
        have hji := Option.some.inj hl
        subst hji
        rw [hlook] at h2
        have hs' : s' = (if cfg.max_attempts ≤ jx.attempts + 1 then
            JobStatus.FAILED else .PENDING) := (Option.some.inj h2).symm
        subst hs'
        rw [hrun]
        by_cases hm : cfg.max_attempts ≤ jx.attempts + 1
        · rw [if_pos hm]; rfl
        · rw [if_neg hm]; rfl
      · rw [show lookupJob l' jid = lookupJob st.jobs jid from hother jid hk,
          hjx] at h2
        exact absurd (Option.some.inj h2) hne

theorem acceptResult_jobs {cfg : OrchCfg} {st st1 : OrchState} {w : ℤ}
    {jid : String} {p : JVal} {v : AcceptVerdict}
    (h : acceptResult cfg st w jid p = some (v, st1)) : st1.jobs = st.jobs := by
  rcases acceptResult_cases h with ⟨-, hst⟩ | ⟨-, hst⟩ | ⟨-, hst⟩ | ⟨-, hst, -, -⟩ <;>
    subst hst <;> rfl

theorem attemptsMono_stepMsg (cfg : OrchCfg) (st : OrchState) (m : Msg) :
    AttemptsMono st (stepMsg cfg st m).1 := by
  cases m with
  | other => exact attemptsMono_of_jobs_eq rfl
  | error jid err =>
      cases hmf : markJobFailed cfg st jid err with
      | none =>
          simp only [stepMsg, hmf]
          exact attemptsMono_of_jobs_eq rfl
      | some st' =>
          simp only [stepMsg, hmf]
          exact attemptsMono_markFailed cfg st jid err st' hmf
  | result w jid p jd =>
      cases hac : acceptResult cfg st w jid p with
      | none =>
          simp only [stepMsg, hac]
          exact attemptsMono_of_jobs_eq rfl
      | some pr =>
          obtain ⟨v, st1⟩ := pr
          have hjobs := acceptResult_jobs hac
          simp only [stepMsg, hac]
          by_cases hcond : v = .ACCEPTED ∧ jd = true
          · rw [if_pos hcond]
            cases hmd : markJobDone st1 jid with
            | none => exact attemptsMono_of_jobs_eq hjobs
            | some st2 =>
                exact attemptsMono_congr hjobs
                  (attemptsMono_markDone st1 jid st2 hmd)
          · rw [if_neg hcond]
            exact attemptsMono_of_jobs_eq hjobs

theorem edgesOK_stepMsg (cfg : OrchCfg) (st : OrchState) (m : Msg)
    (hg : goodOp st (.msg m)) : EdgesOK st (stepMsg cfg st m).1 := by
  cases m with
  | other => exact edgesOK_of_jobs_eq rfl
  | error jid err =>
      cases hmf : markJobFailed cfg st jid err with
      | none =>
          simp only [stepMsg, hmf]
          exact edgesOK_of_jobs_eq rfl
      | some st' =>
          simp only [stepMsg, hmf]
          exact edgesOK_markFailed cfg st jid err st' hg hmf
  | result w jid p jd =>
      cases hac : acceptResult cfg st w jid p with
      | none =>
          simp only [stepMsg, hac]
          exact edgesOK_of_jobs_eq rfl
      | some pr =>
          obtain ⟨v, st1⟩ := pr
          have hjobs := acceptResult_jobs hac
          simp only [stepMsg, hac]
          by_cases hcond : v = .ACCEPTED ∧ jd = true
          · rw [if_pos hcond]
            cases hmd : markJobDone st1 jid with
            | none => exact edgesOK_of_jobs_eq hjobs
            | some st2 =>
                refine edgesOK_congr hjobs (edgesOK_markDone st1 jid st2 ?_ hmd)
                have hjd : jd = true := hcond.2
                subst hjd
                have hg' : jobStatus st jid = some .RUNNING ∨
                    jobStatus st jid = none := hg
                unfold jobStatus at hg' ⊢
                rw [hjobs]
                exact hg'
          · rw [if_neg hcond]
            exact edgesOK_of_jobs_eq hjobs

theorem attemptsMono_applyOp (cfg : OrchCfg) (st : OrchState) (op : Op) :
    AttemptsMono st (applyOp cfg st op).1 := by
  cases op with
  | register js => exact attemptsMono_register st js
  | getNext => exact attemptsMono_getNext st
  | markDone jid =>
      cases hmd : markJobDone st jid with
      | none =>
          simp only [applyOp, hmd]
          exact attemptsMono_of_jobs_eq rfl
      | some st' =>
          simp only [applyOp, hmd]
          exact attemptsMono_markDone st jid st' hmd
  | markFailed jid err =>
      cases hmf : markJobFailed cfg st jid err with
      | none =>
          simp only [applyOp, hmf]
          exact attemptsMono_of_jobs_eq rfl
      | some st' =>
          simp only [applyOp, hmf]
          exact attemptsMono_markFailed cfg st jid err st' hmf
  | msg m => exact attemptsMono_stepMsg cfg st m

theorem edgesOK_applyOp (cfg : OrchCfg) (st : OrchState) (op : Op)
    (hg : goodOp st op) : EdgesOK st (applyOp cfg st op).1 := by
  cases op with
  | register js => exact edgesOK_register st js
  | getNext => exact edgesOK_getNext st
  | markDone jid =>
      cases hmd : markJobDone st jid with
      | none =>
          simp only [applyOp, hmd]
          exact edgesOK_of_jobs_eq rfl
      | some st' =>
          simp only [applyOp, hmd]
          exact edgesOK_markDone st jid st' hg hmd
  | markFailed jid err =>
      cases hmf : markJobFailed cfg st jid err with
      | none =>
          simp only [applyOp, hmf]
          exact edgesOK_of_jobs_eq rfl
      | some st' =>
          simp only [applyOp, hmf]
          exact edgesOK_markFailed cfg st jid err st' hg hmf
  | msg m => exact edgesOK_stepMsg cfg st m hg

theorem runOps_take_succ (cfg : OrchCfg) :
    ∀ (ops : List Op) (st : OrchState) (k : Nat) (hk : k < ops.length),
      (runOps cfg st (ops.take (k + 1))).1 =
        (if (runOps cfg st (ops.take k)).2 then (runOps cfg st (ops.take k)).1
         else (applyOp cfg (runOps cfg st (ops.take k)).1 (ops.get ⟨k, hk⟩)).1) := by
  intro ops
  induction ops with
  | nil => intro st k hk; cases hk
  | cons op tl ih =>
      intro st k hk
      cases k with
      | zero =>
          show (runOps cfg st [op]).1 = _
          simp only [List.take_zero, runOps, List.get]
          by_cases hc : (applyOp cfg st op).2
          · rw [if_pos hc]
            simp [runOps, hc]
          · rw [if_neg hc]
            simp [runOps, hc]
      | succ k' =>
          have hsplit : List.take (k' + 1 + 1) (op :: tl) =
              op :: List.take (k' + 1) tl := rfl
          have hsplit' : List.take (k' + 1) (op :: tl) =
              op :: List.take k' tl := rfl
          rw [hsplit, hsplit']
          simp only [runOps]
          by_cases hc : (applyOp cfg st op).2
          · simp [hc]
          · simp only [if_neg hc]
            exact ih (applyOp cfg st op).1 k' (Nat.lt_of_succ_lt_succ hk)

/-- **C6** (counterexample): the claim asserts the status edges hold under
*every* sequence of the listed orchestrator operations.  But registering a
job and then processing an accepted `RESULT` flagged `job_done=True` for it
without it ever having been dispatched moves its status `PENDING → DONE`,
which is not one of the defined edges (the same happens calling
`mark_job_done` directly on a `PENDING` job). -/
theorem job_status_edges_counterexample :
    jobStatus (traceState cfgRiemann freshState opsPendingDone 1)
      "chunk_5000_5010" = some .PENDING ∧
    jobStatus (traceState cfgRiemann freshState opsPendingDone 2)
      "chunk_5000_5010" = some .DONE ∧
    definedEdge .PENDING .DONE = false :=
  ⟨by decide, by decide, by decide⟩

/-- **C6** (amended): under every sequence of orchestrator operations
(`register_jobs`, `get_next_job`, `mark_job_done`, `mark_job_failed`, and
the reducer's handling of `RESULT`/`ERROR` messages), every job's
`attempts` field never decreases; and provided `mark_job_done`,
`mark_job_failed` and the `job_done`/`ERROR` message handling are only
invoked for jobs currently `RUNNING` (as the reference harness does —
without this discipline the counterexample applies), every status change
follows the defined edges `PENDING→RUNNING`, `RUNNING→DONE`,
`RUNNING→PENDING`, `RUNNING→FAILED`. -/
theorem job_record_invariants (cfg : OrchCfg) (st : OrchState) (ops : List Op) :
    (∀ k, k < ops.length →
      AttemptsMono (traceState cfg st ops k) (traceState cfg st ops (k + 1))) ∧
    ((∀ k (hk : k < ops.length),
        goodOp (traceState cfg st ops k) (ops.get ⟨k, hk⟩)) →
      ∀ k, k < ops.length →
        EdgesOK (traceState cfg st ops k) (traceState cfg st ops (k + 1))) := by
  constructor
  · intro k hk
    unfold traceState
    rw [runOps_take_succ cfg ops st k hk]
    by_cases hc : (runOps cfg st (ops.take k)).2
    · rw [if_pos hc]
      exact attemptsMono_of_jobs_eq rfl
    · rw [if_neg hc]
      exact attemptsMono_applyOp cfg _ _
  · intro hgood k hk
    unfold traceState
    rw [runOps_take_succ cfg ops st k hk]
    by_cases hc : (runOps cfg st (ops.take k)).2
    · rw [if_pos hc]
      exact edgesOK_of_jobs_eq rfl
    · rw [if_neg hc]
      exact edgesOK_applyOp cfg _ _ (hgood k hk)

theorem job_record_invariants_witness :
    (∀ k (hk : k < opsCompletion.length),
      goodOp (traceState cfgRiemann freshState opsCompletion k)
        (opsCompletion.get ⟨k, hk⟩)) ∧
    (∀ k, k < opsCompletion.length →
      EdgesOK (traceState cfgRiemann freshState opsCompletion k)
        (traceState cfgRiemann freshState opsCompletion (k + 1))) := by
  have hgood : ∀ k (hk : k < opsCompletion.length),
      goodOp (traceState cfgRiemann freshState opsCompletion k)
        (opsCompletion.get ⟨k, hk⟩) := by
    intro k hk
    have hk4 : k < 4 := hk
    interval_cases k
    · trivial
    · trivial
    · trivial
    · exact Or.inl (by decide)
  exact ⟨hgood,
    (job_record_invariants cfgRiemann freshState opsCompletion).2 hgood⟩

theorem canon_base (r : String) (w : ℤ) (j : String) (s : ℤ) (p : JVal)
    (t : String) :
    canon (LedgerEvent.base r w j s p t) =
      .jobj (.cons "job_id" (.jstr j)
            (.cons "payload" (canon p)
            (.cons "run_id" (.jstr r)
            (.cons "seq" (.jnum (s : ℚ))
            (.cons "ts" (.jstr t)
            (.cons "worker_id" (.jnum (w : ℚ)) .nil)))))) := rfl

theorem canon_base_inj {r r' j j' t t' : String} {w w' s s' : ℤ} {p p' : JVal}
    (h : canon (LedgerEvent.base r w j s p t) =
      canon (LedgerEvent.base r' w' j' s' p' t')) :
    r = r' ∧ w = w' ∧ j = j' ∧ s = s' ∧ canon p = canon p' ∧ t = t' := by
  rw [canon_base, canon_base] at h
  simp only [JVal.jobj.injEq, JEntries.cons.injEq, JVal.jstr.injEq,
    JVal.jnum.injEq, Int.cast_inj, true_and, and_true] at h
  exact ⟨h.2.2.1, h.2.2.2.2.2, h.1, h.2.2.2.1, h.2.1, h.2.2.2.2.1⟩

theorem verifyEvent_from_parts (r : String) (w : ℤ) (j : String) (s : ℤ)
    (p : JVal) (t : String) :
    verifyEvent (LedgerEvent.from_parts r w j s p t) = true := by
  simp [verifyEvent, LedgerEvent.from_parts]

theorem verifyEvent_true_iff {e : LedgerEvent} :
    verifyEvent e = true ↔
      e.hash = sha256_json
        (LedgerEvent.base e.run_id e.worker_id e.job_id e.seq e.payload e.ts) := by
  simp [verifyEvent]

theorem verifyEvent_mutated {e e' : LedgerEvent} (hv : verifyEvent e = true)
    (hm : MutatedOne e e') : verifyEvent e' = false := by
  have hhash : e.hash = sha256_json
      (LedgerEvent.base e.run_id e.worker_id e.job_id e.seq e.payload e.ts) :=
    verifyEvent_true_iff.mp hv
  rw [show verifyEvent e' = false ↔ ¬ (e'.hash = sha256_json
      (LedgerEvent.base e'.run_id e'.worker_id e'.job_id e'.seq e'.payload e'.ts))
    by simp [verifyEvent]]
  intro habs
  unfold sha256_json at hhash habs
  rcases hm with ⟨hne, h2, h3, h4, h5, h6, h7⟩ | ⟨h1, hne, h3, h4, h5, h6, h7⟩ |
    ⟨h1, h2, hne, h4, h5, h6, h7⟩ | ⟨h1, h2, h3, hne, h5, h6, h7⟩ |
    ⟨h1, h2, h3, h4, hne, h6, h7⟩ | ⟨h1, h2, h3, h4, h5, hne, h7⟩ |
    ⟨h1, h2, h3, h4, h5, h6, hne⟩
  · rw [h7, hhash, h2, h3, h4, h5, h6] at habs
    exact hne (canon_base_inj habs.symm).1
  · rw [h7, hhash, h1, h3, h4, h5, h6] at habs
    exact hne (canon_base_inj habs.symm).2.1
  · rw [h7, hhash, h1, h2, h4, h5, h6] at habs
    exact hne (canon_base_inj habs.symm).2.2.1
  · rw [h7, hhash, h1, h2, h3, h5, h6] at habs
    exact hne (canon_base_inj habs.symm).2.2.2.1
  · rw [h7, hhash, h1, h2, h3, h4, h6] at habs
    exact hne (canon_base_inj habs.symm).2.2.2.2.1
  · rw [h7, hhash, h1, h2, h3, h4, h5] at habs
    exact hne (canon_base_inj habs.symm).2.2.2.2.2
  · rw [h1, h2, h3, h4, h5, h6] at habs
    exact hne (habs.trans hhash.symm)

theorem mismatchIndicesFrom_nil_of_all :
    ∀ (l : List LedgerEvent) (k : ℕ), (∀ e ∈ l, verifyEvent e = true) →
      mismatchIndicesFrom k l = []
  | [], _, _ => rfl
  | e :: tl, k, h => by
      unfold mismatchIndicesFrom
      rw [if_pos (h e (List.mem_cons_self e tl))]
      exact mismatchIndicesFrom_nil_of_all tl (k + 1)
        (fun e' he' => h e' (List.mem_cons_of_mem e he'))

theorem mismatchIndicesFrom_single :
    ∀ (l : List LedgerEvent) (k i : ℕ) (hi : i < l.length),
      (∀ m (hm : m < l.length), m ≠ i → verifyEvent (l.get ⟨m, hm⟩) = true) →
      verifyEvent (l.get ⟨i, hi⟩) = false →
      mismatchIndicesFrom k l = [k + i]
  | [], _, i, hi, _, _ => absurd hi (Nat.not_lt_zero i)
  | e :: tl, k, 0, hi, hoth, hbad => by
      have hbe : verifyEvent e = false := hbad
      unfold mismatchIndicesFrom
      rw [if_neg (by rw [hbe]; exact Bool.false_ne_true)]
      rw [mismatchIndicesFrom_nil_of_all tl (k + 1) ?_]
      · simp
      · intro e' he'
        obtain ⟨⟨m, hm⟩, rfl⟩ := List.mem_iff_get.mp he'
        exact hoth (m + 1) (Nat.succ_lt_succ hm) (Nat.succ_ne_zero m)
  | e :: tl, k, i + 1, hi, hoth, hbad => by
      have hbe : verifyEvent e = true :=
        hoth 0 (Nat.zero_lt_succ _) (Nat.zero_ne_add_one i)
      unfold mismatchIndicesFrom
      rw [if_pos hbe]
      rw [mismatchIndicesFrom_single tl (k + 1) i (Nat.lt_of_succ_lt_succ hi)
        (fun m hm hne => hoth (m + 1) (Nat.succ_lt_succ hm)
          (fun hc => hne (Nat.succ_injective hc)))
        hbad]
      congr 1
      omega

/-- **C9** (counterexample): the claim says mutating any single field of a
stored ledger line is reported at that line's index.  Rewriting the stored
`payload` field to list the same keys in the opposite order changes the
stored line (a different byte sequence, a different parsed ordered object)
yet the recomputing verification pass reports nothing: the canonical
(key-sorted) hash is insensitive to key order. -/
theorem tamper_reorder_counterexample :
    evtTwoKeysSwapped.payload ≠ evtTwoKeys.payload ∧
    evtTwoKeysSwapped.run_id = evtTwoKeys.run_id ∧
    evtTwoKeysSwapped.worker_id = evtTwoKeys.worker_id ∧
    evtTwoKeysSwapped.job_id = evtTwoKeys.job_id ∧
    evtTwoKeysSwapped.seq = evtTwoKeys.seq ∧
    evtTwoKeysSwapped.ts = evtTwoKeys.ts ∧
    evtTwoKeysSwapped.hash = evtTwoKeys.hash ∧
    verifyEvent evtTwoKeys = true ∧
    mismatchIndices [evtTwoKeysSwapped] = [] :=
  ⟨by decide, by decide, by decide, by decide, by decide, by decide, by decide,
   by decide, by decide⟩

/-- **C9** (amended): every `LedgerEvent` built by `from_parts` carries as
`hash` the canonical content hash of all its other fields; and mutating a
single field of any stored line of a well-formed ledger — to a value with
different canonical content, i.e. anything but a pure key reordering inside
the payload (see the counterexample) — makes the verification pass report a
mismatch at exactly that line's index and at no other. -/
theorem ledger_tamper_detection :
    (∀ (r : String) (w : ℤ) (jid : String) (s : ℤ) (p : JVal) (t : String),
      (LedgerEvent.from_parts r w jid s p t).hash =
        sha256_json (LedgerEvent.base r w jid s p t)) ∧
    (∀ (ledger : List LedgerEvent) (i : ℕ) (hi : i < ledger.length)
        (e' : LedgerEvent),
      (∀ e ∈ ledger, verifyEvent e = true) →
      MutatedOne (ledger.get ⟨i, hi⟩) e' →
      mismatchIndices (ledger.set i e') = [i]) := by
  refine ⟨fun r w jid s p t => rfl, ?_⟩
  intro ledger i hi e' hall hmut
  unfold mismatchIndices
  have hlen : (ledger.set i e').length = ledger.length := List.length_set ..
  have hi' : i < (ledger.set i e').length := by rw [hlen]; exact hi
  have hbad : verifyEvent ((ledger.set i e').get ⟨i, hi'⟩) = false := by
    rw [List.get_eq_getElem]
    rw [List.getElem_set_self]
    exact verifyEvent_mutated (hall _ (List.get_mem ledger i hi)) hmut
  have hoth : ∀ m (hm : m < (ledger.set i e').length), m ≠ i →
      verifyEvent ((ledger.set i e').get ⟨m, hm⟩) = true := by
    intro m hm hne
    rw [List.get_eq_getElem]
    rw [List.getElem_set_ne (Ne.symm hne)]
    exact hall _ (List.getElem_mem _)
  have hfin := mismatchIndicesFrom_single (ledger.set i e') 0 i hi' hoth hbad
  simpa using hfin

theorem ledger_tamper_detection_witness :
    ((0 : ℕ) < [evtTwoKeys].length ∧
     (∀ e ∈ [evtTwoKeys], verifyEvent e = true) ∧
     MutatedOne ([evtTwoKeys].get ⟨0, by decide⟩) { evtTwoKeys with ts := "t1" }) ∧
    mismatchIndices ([evtTwoKeys].set 0 { evtTwoKeys with ts := "t1" }) = [0] :=
  ⟨⟨by decide, by decide, by unfold MutatedOne; decide⟩,
   ledger_tamper_detection.2 [evtTwoKeys] 0 (by decide)
     { evtTwoKeys with ts := "t1" } (by decide) (by unfold MutatedOne; decide)⟩
